import Mathlib

/-!
Shallow embedding of the MultiSend balance-change calculator
(`calculate_balance_changes` in `src/main.rs`) together with proofs about
its behaviour.

Modelling conventions:
* Rust `i128` amounts are modelled as `Int` (arithmetic overflow aborts a
  debug Rust build and is outside the scope of the verified claims).
* Rust `f64` burn/commission rates are modelled as exact rationals `ℚ`,
  following the real-number-then-ceiling semantics the computation uses;
  the `1e-10` guard subtracted in the commission computation is modelled
  as the rational `1 / 10 ^ 10`.
* Rust `HashMap` tables are modelled as association lists built and
  updated in program order.  Every quantity the claims mention (per-denom
  sums, membership, the final filtered list) is insensitive to the
  iteration order of the tables, so the list order chosen here is a
  faithful stand-in for the unspecified `HashMap` iteration order.
* A Rust `.unwrap()` on a missing key aborts the process; this is modelled
  by the dedicated result constructor `Step.abort`, distinct from the
  `Result::Err` constructor `Step.err`.
-/

/-- Coin: a denomination name together with a signed amount
(`src/main.rs` lines 19-23). -/
structure Coin where
  denom : String
  amount : Int
deriving DecidableEq

/-- Balance: an address together with a list of coins
(`src/main.rs` lines 25-29). -/
structure Balance where
  address : String
  coins : List Coin
deriving DecidableEq

/-- DenomDefinition: denomination metadata (`src/main.rs` lines 31-47). -/
structure DenomDefinition where
  denom : String
  issuer : String
  burn_rate : ℚ
  commission_rate : ℚ
deriving DecidableEq

/-- MultiSend transaction: debit side and credit side
(`src/main.rs` lines 11-17). -/
structure MultiSend where
  inputs : List Balance
  outputs : List Balance
deriving DecidableEq

/-- Rejection reasons produced by `calculate_balance_changes`.  The source
returns `Result<_, String>`; each constructor corresponds to exactly one
`format!` site, rendered by `Err.message`. -/
inductive Err where
  | inputOutputMismatch : Err
  | noOriginalBalance (address : String) : Err
  | insufficientBalance (address : String) (denom : String) : Err
deriving DecidableEq

/-- Err.message renders the exact strings of the source `format!` calls
(`src/main.rs` lines 109, 190-193, 218-221, 224-227). -/
def Err.message : Err → String
  | .inputOutputMismatch => "notice that input and output does not match"
  | .noOriginalBalance address => "No original balance specified for " ++ address
  | .insufficientBalance address denom =>
      "notice that " ++ address ++ " does not have enough balance for " ++ denom

/-- Step is the outcome of a stage of the computation: a value, a returned
error, or a process abort (a Rust `unwrap` of `None`). -/
inductive Step (α : Type) where
  | ok (value : α) : Step α
  | err (e : Err) : Step α
  | abort : Step α
deriving DecidableEq

/-- CalcResult is the outcome of the whole calculator. -/
abbrev CalcResult := Step (List Balance)

/-- lookupA models `HashMap::get` on an association list. -/
def lookupA {α : Type} : List (String × α) → String → Option α
  | [], _ => none
  | (k, v) :: rest, d => if k = d then some v else lookupA rest d

/-- bumpEntry models `*map.entry(k).or_insert(0) += a`. -/
def bumpEntry : List (String × Int) → String → Int → List (String × Int)
  | [], d, a => [(d, a)]
  | (k, v) :: rest, d, a =>
      if k = d then (k, v + a) :: rest else (k, v) :: bumpEntry rest d a

/-- setEntry models `HashMap::insert` (replace the value if the key is
present, otherwise add the pair). -/
def setEntry {α : Type} : List (String × α) → String → α → List (String × α)
  | [], d, x => [(d, x)]
  | (k, v) :: rest, d, x =>
      if k = d then (k, x) :: rest else (k, v) :: setEntry rest d x

/-- updateEntry models `map.entry(k).or_insert(empty)` followed by an
in-place modification `f` of the stored value. -/
def updateEntry : List (String × List (String × Int)) → String →
    (List (String × Int) → List (String × Int)) → List (String × List (String × Int))
  | [], a, f => [(a, f [])]
  | (k, m) :: rest, a, f =>
      if k = a then (k, f m) :: rest else (k, m) :: updateEntry rest a f

/-- coinTotals accumulates the amounts of a coin list into a per-denom map
(the inner loops of `src/main.rs` lines 90-102 and 239-242). -/
def coinTotals : List (String × Int) → List Coin → List (String × Int)
  | m, [] => m
  | m, c :: rest => coinTotals (bumpEntry m c.denom c.amount) rest

/-- sideTotals accumulates one side of the transaction into a per-denom map
(`src/main.rs` lines 90-102). -/
def sideTotals : List (String × Int) → List Balance → List (String × Int)
  | m, [] => m
  | m, b :: rest => sideTotals (coinTotals m b.coins) rest

/-- entriesMatch holds when every entry of the second map is found, with the
same value, in the first map (one direction of the conservation check,
`src/main.rs` lines 105-129). -/
def entriesMatch (other : List (String × Int)) : List (String × Int) → Bool
  | [] => true
  | (d, v) :: rest =>
      match lookupA other d with
      | some w => if v = w then entriesMatch other rest else false
      | none => false

/-- totalsMatch is the whole conservation check of `src/main.rs`
lines 104-129: every input entry must match the output map and conversely.
All mismatch branches of the source return the same error string, so the
check is faithfully a boolean. -/
def totalsMatch (ia oa : List (String × Int)) : Bool :=
  entriesMatch oa ia && entriesMatch ia oa

/-- buildIssuers folds the definitions into the issuer table
(`src/main.rs` lines 138-142). -/
def buildIssuers : List (String × String) → List DenomDefinition → List (String × String)
  | m, [] => m
  | m, df :: rest => buildIssuers (setEntry m df.denom df.issuer) rest

/-- buildBurnRates folds the definitions into the burn-rate table
(`src/main.rs` lines 138-142). -/
def buildBurnRates : List (String × ℚ) → List DenomDefinition → List (String × ℚ)
  | m, [] => m
  | m, df :: rest => buildBurnRates (setEntry m df.denom df.burn_rate) rest

/-- buildCommissionRates folds the definitions into the commission-rate
table (`src/main.rs` lines 138-142). -/
def buildCommissionRates : List (String × ℚ) → List DenomDefinition → List (String × ℚ)
  | m, [] => m
  | m, df :: rest => buildCommissionRates (setEntry m df.denom df.commission_rate) rest

/-- nonIssuerCoins accumulates the coins of one account into the non-issuer
sum map, skipping coins whose account is the denom issuer; a missing
definition aborts (`src/main.rs` lines 144-166, the `unwrap` on line
146/158). -/
def nonIssuerCoins (issuers : List (String × String)) (addr : String) :
    List (String × Int) → List Coin → Option (List (String × Int))
  | m, [] => some m
  | m, c :: rest =>
      match lookupA issuers c.denom with
      | none => none
      | some iss =>
          if addr = iss then nonIssuerCoins issuers addr m rest
          else nonIssuerCoins issuers addr (bumpEntry m c.denom c.amount) rest

/-- nonIssuerSide runs `nonIssuerCoins` over one side of the transaction
(`src/main.rs` lines 144-166); `none` models the process abort. -/
def nonIssuerSide (issuers : List (String × String)) :
    List (String × Int) → List Balance → Option (List (String × Int))
  | m, [] => some m
  | m, b :: rest =>
      match nonIssuerCoins issuers b.address m b.coins with
      | none => none
      | some m2 => nonIssuerSide issuers m2 rest

/-- getD models `map.get(k).unwrap_or(&0)`. -/
def getD (m : List (String × Int)) (d : String) : Int :=
  match lookupA m d with
  | some v => v
  | none => 0

/-- minAmountsMap builds the per-denom minimum of the two non-issuer sums
(`src/main.rs` lines 168-177). -/
def minAmountsMap (niiIn niiOut : List (String × Int)) :
    List (String × Int) → List DenomDefinition → List (String × Int)
  | m, [] => m
  | m, df :: rest =>
      minAmountsMap niiIn niiOut
        (setEntry m df.denom (min (getD niiIn df.denom) (getD niiOut df.denom))) rest

/-- epsilonQ is the `1e-10` guard the source subtracts before the
commission ceiling (`src/main.rs` line 210). -/
def epsilonQ : ℚ := 1 / 10 ^ 10

/-- ceilQ is the rounding-up of the real-valued share to an integer
(`.ceil() as i128` in the source). -/
def ceilQ (q : ℚ) : Int := Int.ceil q

/-- burnShareQ is the burn share of one input coin
(`src/main.rs` lines 203-205). -/
def burnShareQ (minAmt : Int) (rate : ℚ) (a : Int) (nii : Int) : Int :=
  ceilQ ((minAmt : ℚ) * rate * (a : ℚ) / (nii : ℚ))

/-- commShareQ is the commission share of one input coin, with the
epsilon guard (`src/main.rs` lines 208-211). -/
def commShareQ (minAmt : Int) (rate : ℚ) (a : Int) (nii : Int) : Int :=
  ceilQ ((minAmt : ℚ) * rate * (a : ℚ) / (nii : ℚ) - epsilonQ)

/-- totalDebitQ is the total amount deducted for one non-issuer input coin:
the coin amount plus its burn and commission shares
(`src/main.rs` lines 198-214). -/
def totalDebitQ (minAmt : Int) (burnRate commissionRate : ℚ) (a : Int) (nii : Int) : Int :=
  a + burnShareQ minAmt burnRate a nii + commShareQ minAmt commissionRate a nii

/-- findCoin models `coins.iter().find(|coin| coin.denom == denom)`. -/
def findCoin : List Coin → String → Option Coin
  | [], _ => none
  | c :: rest, d => if c.denom = d then some c else findCoin rest d

/-- findBalance models
`original_balances.iter().find(|bal| bal.address == addr)`. -/
def findBalance : List Balance → String → Option Balance
  | [], _ => none
  | b :: rest, a => if b.address = a then some b else findBalance rest a

/-- processCoin is the body of the inner loop of `src/main.rs` lines
196-230: compute the burn and commission shares for a non-issuer coin,
record the commission, check the payer balance, and store the (negated)
total debit in the per-account coin map. -/
def processCoin (issuers : List (String × String)) (burnRates commissionRates : List (String × ℚ))
    (minAmts niiIn : List (String × Int)) (addr : String) (balanceCoins : List Coin)
    (commissions : List (String × Int)) (coins : List (String × Int)) (c : Coin) :
    Step (List (String × Int) × List (String × Int)) :=
  match lookupA issuers c.denom with
  | none => .abort
  | some iss =>
      let shared : Step (Int × List (String × Int)) :=
        if addr = iss then .ok (c.amount, commissions)
        else
          match lookupA minAmts c.denom, lookupA burnRates c.denom,
              lookupA niiIn c.denom, lookupA commissionRates c.denom with
          | some minAmt, some br, some nii, some cr =>
              let burn := burnShareQ minAmt br c.amount nii
              let comm := commShareQ minAmt cr c.amount nii
              .ok (c.amount + burn + comm, bumpEntry commissions c.denom comm)
          | _, _, _, _ => .abort
      match shared with
      | .abort => .abort
      | .err e => .err e
      | .ok (total, commissions2) =>
          match findCoin balanceCoins c.denom with
          | none => .err (.insufficientBalance addr c.denom)
          | some bc =>
              if bc.amount < total then .err (.insufficientBalance addr c.denom)
              else .ok (commissions2, setEntry coins c.denom (-total))

/-- processCoins threads `processCoin` over one input account's coin list. -/
def processCoins (issuers : List (String × String)) (burnRates commissionRates : List (String × ℚ))
    (minAmts niiIn : List (String × Int)) (addr : String) (balanceCoins : List Coin) :
    List (String × Int) → List (String × Int) → List Coin →
    Step (List (String × Int) × List (String × Int))
  | commissions, coins, [] => .ok (commissions, coins)
  | commissions, coins, c :: rest =>
      match processCoin issuers burnRates commissionRates minAmts niiIn addr balanceCoins
          commissions coins c with
      | .abort => .abort
      | .err e => .err e
      | .ok (comm2, coins2) =>
          processCoins issuers burnRates commissionRates minAmts niiIn addr balanceCoins
            comm2 coins2 rest

/-- Changes is the accumulated `blance_changes` table of the source:
per-address, per-denom signed deltas. -/
abbrev Changes := List (String × List (String × Int))

/-- processInputs is the outer loop of `src/main.rs` lines 184-232.  Note
that the source stores each input account's coin map with
`blance_changes.insert(input.address.clone(), coins)` (line 231), which
REPLACES any map already stored for that address; this is modelled by
`setEntry`. -/
def processInputs (origBalances : List Balance) (issuers : List (String × String))
    (burnRates commissionRates : List (String × ℚ)) (minAmts niiIn : List (String × Int)) :
    List (String × Int) → Changes → List Balance → Step (List (String × Int) × Changes)
  | commissions, changes, [] => .ok (commissions, changes)
  | commissions, changes, input :: rest =>
      match findBalance origBalances input.address with
      | none => .err (.noOriginalBalance input.address)
      | some bal =>
          match processCoins issuers burnRates commissionRates minAmts niiIn input.address
              bal.coins commissions [] input.coins with
          | .abort => .abort
          | .err e => .err e
          | .ok (comm2, coins) =>
              processInputs origBalances issuers burnRates commissionRates minAmts niiIn
                comm2 (setEntry changes input.address coins) rest

/-- applyOutputs is the loop of `src/main.rs` lines 234-243: each output
coin accumulates a positive delta onto its receiving address. -/
def applyOutputs : Changes → List Balance → Changes
  | changes, [] => changes
  | changes, out :: rest =>
      applyOutputs (updateEntry changes out.address (fun m => coinTotals m out.coins)) rest

/-- applyCommissions is the loop of `src/main.rs` lines 245-256: each
denom's accumulated commission is credited to the denom's issuer, zero
totals are skipped, and a missing issuer entry aborts. -/
def applyCommissions (issuers : List (String × String)) :
    Changes → List (String × Int) → Step Changes
  | changes, [] => .ok changes
  | changes, (d, amt) :: rest =>
      if amt = 0 then applyCommissions issuers changes rest
      else
        match lookupA issuers d with
        | none => .abort
        | some addr =>
            applyCommissions issuers (updateEntry changes addr (fun m => bumpEntry m d amt)) rest

/-- nonzeroCoins keeps the nonzero deltas of one account as coins
(`src/main.rs` lines 262-270). -/
def nonzeroCoins : List (String × Int) → List Coin
  | [] => []
  | (d, a) :: rest =>
      if a = 0 then nonzeroCoins rest else Coin.mk d a :: nonzeroCoins rest

/-- assemble builds the final result, dropping zero deltas and addresses
with no remaining deltas (`src/main.rs` lines 260-277). -/
def assemble : Changes → List Balance
  | [] => []
  | (addr, m) :: rest =>
      match nonzeroCoins m with
      | [] => assemble rest
      | c :: cs => Balance.mk addr (c :: cs) :: assemble rest

/-- calculate_balance_changes is the full calculator of `src/main.rs`
lines 81-280, assembled from the stage functions above in program order. -/
def calculate_balance_changes (original_balances : List Balance)
    (definitions : List DenomDefinition) (multi_send_tx : MultiSend) : CalcResult :=
  let input_amounts := sideTotals [] multi_send_tx.inputs
  let output_amounts := sideTotals [] multi_send_tx.outputs
  if totalsMatch input_amounts output_amounts then
    let issuers := buildIssuers [] definitions
    let burnRates := buildBurnRates [] definitions
    let commissionRates := buildCommissionRates [] definitions
    match nonIssuerSide issuers [] multi_send_tx.inputs with
    | none => .abort
    | some niiIn =>
        match nonIssuerSide issuers [] multi_send_tx.outputs with
        | none => .abort
        | some niiOut =>
            let minAmts := minAmountsMap niiIn niiOut [] definitions
            match processInputs original_balances issuers burnRates commissionRates
                minAmts niiIn [] [] multi_send_tx.inputs with
            | .abort => .abort
            | .err e => .err e
            | .ok (commissions, changes) =>
                let changes2 := applyOutputs changes multi_send_tx.outputs
                match applyCommissions issuers changes2 commissions with
                | .abort => .abort
                | .err e => .err e
                | .ok changes3 => .ok (assemble changes3)
  else .err .inputOutputMismatch

/-! ### Auxiliary definitions used by the statements and proofs -/

/-- keysOf lists the keys of an association list. -/
def keysOf {α : Type} (m : List (String × α)) : List String := m.map Prod.fst

/-- amapSum sums the values stored under one key (duplicates included). -/
def amapSum : List (String × Int) → String → Int
  | [], _ => 0
  | (k, v) :: rest, d => (if k = d then v else 0) + amapSum rest d

/-- changesSum sums, over every stored account, the delta for one denom. -/
def changesSum : Changes → String → Int
  | [], _ => 0
  | (_, m) :: rest, d => amapSum m d + changesSum rest d

/-- NodupKeys states that an association list has no repeated key. -/
def NodupKeys {α : Type} (m : List (String × α)) : Prop := (keysOf m).Nodup

/-- coinsAmtSum sums the amounts carried by one denom in a coin list. -/
def coinsAmtSum (d : String) : List Coin → Int
  | [] => 0
  | c :: rest => (if c.denom = d then c.amount else 0) + coinsAmtSum d rest

/-- sideAmtSum sums the amounts carried by one denom over one transaction
side. -/
def sideAmtSum (d : String) : List Balance → Int
  | [] => 0
  | b :: rest => coinsAmtSum d b.coins + sideAmtSum d rest

/-- nonIssuerCoinsAmtSum is the per-denom sum of the amounts of the coins
of one account, counting only coins whose account is not the denom issuer
(a coin whose denom has no issuer entry counts 0; in that case the
computation itself aborts). -/
def nonIssuerCoinsAmtSum (issuers : List (String × String)) (addr : String) (d : String) :
    List Coin → Int
  | [] => 0
  | c :: rest =>
      (if c.denom = d then
        match lookupA issuers c.denom with
        | some iss => if addr = iss then 0 else c.amount
        | none => 0
      else 0) + nonIssuerCoinsAmtSum issuers addr d rest

/-- nonIssuerAmtSum is the per-denom non-issuer sum over one side. -/
def nonIssuerAmtSum (issuers : List (String × String)) (d : String) : List Balance → Int
  | [] => 0
  | b :: rest =>
      nonIssuerCoinsAmtSum issuers b.address d b.coins + nonIssuerAmtSum issuers d rest

/-- coinBurnTerm is the burn share charged for one input coin: zero for an
issuer coin, otherwise the ceiling share computed from the pipeline tables
(0 when a table lookup would abort, a case in which no result is
returned). -/
def coinBurnTerm (issuers : List (String × String))
    (burnRates commissionRates : List (String × ℚ)) (minAmts niiIn : List (String × Int))
    (addr : String) (c : Coin) : Int :=
  match lookupA issuers c.denom with
  | none => 0
  | some iss =>
      if addr = iss then 0
      else
        match lookupA minAmts c.denom, lookupA burnRates c.denom, lookupA niiIn c.denom,
            lookupA commissionRates c.denom with
        | some minAmt, some br, some nii, some _ => burnShareQ minAmt br c.amount nii
        | _, _, _, _ => 0

/-- coinCommTerm is the commission share charged for one input coin,
analogous to `coinBurnTerm`. -/
def coinCommTerm (issuers : List (String × String))
    (burnRates commissionRates : List (String × ℚ)) (minAmts niiIn : List (String × Int))
    (addr : String) (c : Coin) : Int :=
  match lookupA issuers c.denom with
  | none => 0
  | some iss =>
      if addr = iss then 0
      else
        match lookupA minAmts c.denom, lookupA burnRates c.denom, lookupA niiIn c.denom,
            lookupA commissionRates c.denom with
        | some minAmt, some _, some nii, some cr => commShareQ minAmt cr c.amount nii
        | _, _, _, _ => 0

/-- coinsBurnSum sums the burn shares of one denom over a coin list. -/
def coinsBurnSum (issuers : List (String × String))
    (burnRates commissionRates : List (String × ℚ)) (minAmts niiIn : List (String × Int))
    (addr : String) (d : String) : List Coin → Int
  | [] => 0
  | c :: rest =>
      (if c.denom = d then
        coinBurnTerm issuers burnRates commissionRates minAmts niiIn addr c else 0) +
      coinsBurnSum issuers burnRates commissionRates minAmts niiIn addr d rest

/-- coinsCommSum sums the commission shares of one denom over a coin
list. -/
def coinsCommSum (issuers : List (String × String))
    (burnRates commissionRates : List (String × ℚ)) (minAmts niiIn : List (String × Int))
    (addr : String) (d : String) : List Coin → Int
  | [] => 0
  | c :: rest =>
      (if c.denom = d then
        coinCommTerm issuers burnRates commissionRates minAmts niiIn addr c else 0) +
      coinsCommSum issuers burnRates commissionRates minAmts niiIn addr d rest

/-- inputsBurnSum sums the burn shares of one denom over the input side. -/
def inputsBurnSum (issuers : List (String × String))
    (burnRates commissionRates : List (String × ℚ)) (minAmts niiIn : List (String × Int))
    (d : String) : List Balance → Int
  | [] => 0
  | b :: rest =>
      coinsBurnSum issuers burnRates commissionRates minAmts niiIn b.address d b.coins +
      inputsBurnSum issuers burnRates commissionRates minAmts niiIn d rest

/-- inputsCommSum sums the commission shares of one denom over the input
side. -/
def inputsCommSum (issuers : List (String × String))
    (burnRates commissionRates : List (String × ℚ)) (minAmts niiIn : List (String × Int))
    (d : String) : List Balance → Int
  | [] => 0
  | b :: rest =>
      coinsCommSum issuers burnRates commissionRates minAmts niiIn b.address d b.coins +
      inputsCommSum issuers burnRates commissionRates minAmts niiIn d rest

/-- denomBurnTotal is the total burn of one denom as the conservation claim
defines it: the sum, over the non-issuer input coins, of the
ceiling-rounded burn shares, computed from the same tables the calculator
builds from the definitions and the transaction. -/
def denomBurnTotal (definitions : List DenomDefinition) (tx : MultiSend) (d : String) : Int :=
  let issuers := buildIssuers [] definitions
  match nonIssuerSide issuers [] tx.inputs, nonIssuerSide issuers [] tx.outputs with
  | some niiIn, some niiOut =>
      inputsBurnSum issuers (buildBurnRates [] definitions)
        (buildCommissionRates [] definitions)
        (minAmountsMap niiIn niiOut [] definitions) niiIn d tx.inputs
  | _, _ => 0

/-- coinsPosSum sums the positive amounts of one denom in a coin list. -/
def coinsPosSum (d : String) : List Coin → Int
  | [] => 0
  | c :: rest => (if c.denom = d ∧ 0 < c.amount then c.amount else 0) + coinsPosSum d rest

/-- coinsNegAbsSum sums the absolute values of the negative amounts of one
denom in a coin list. -/
def coinsNegAbsSum (d : String) : List Coin → Int
  | [] => 0
  | c :: rest => (if c.denom = d ∧ c.amount < 0 then -c.amount else 0) + coinsNegAbsSum d rest

/-- posSum sums the positive deltas of one denom over a result list. -/
def posSum (d : String) : List Balance → Int
  | [] => 0
  | b :: rest => coinsPosSum d b.coins + posSum d rest

/-- negAbsSum sums the absolute values of the negative deltas of one denom
over a result list. -/
def negAbsSum (d : String) : List Balance → Int
  | [] => 0
  | b :: rest => coinsNegAbsSum d b.coins + negAbsSum d rest

/-- allZeroA holds when every value of a per-denom map is zero. -/
def allZeroA (m : List (String × Int)) : Prop := ∀ p ∈ m, p.2 = 0

/-- allZeroC holds when every stored per-account map is all zero. -/
def allZeroC (ch : Changes) : Prop := ∀ p ∈ ch, allZeroA p.2

/-- isErr tests whether a step outcome is a returned `Result::Err`. -/
def isErr {α : Type} : Step α → Bool
  | .err _ => true
  | _ => false

/-- fxBalances is the balance snapshot of the first `src/test.rs` fixture. -/
def fxBalances : List Balance := [⟨"account1", [⟨"denom1", 1000000⟩]⟩]

/-- fxDefs is the definition list of the first `src/test.rs` fixture, with
the 0.08 and 0.12 rates as exact rationals. -/
def fxDefs : List DenomDefinition := [⟨"denom1", "issuer_account_A", 2/25, 3/25⟩]

/-- fxTx is the transaction of the first `src/test.rs` fixture. -/
def fxTx : MultiSend :=
  ⟨[⟨"account1", [⟨"denom1", 1000⟩]⟩], [⟨"account_recipient", [⟨"denom1", 1000⟩]⟩]⟩

/-- fxResult is the delta list the calculator produces on the first
fixture. -/
def fxResult : List Balance :=
  [⟨"account1", [⟨"denom1", -1200⟩]⟩, ⟨"account_recipient", [⟨"denom1", 1000⟩]⟩,
   ⟨"issuer_account_A", [⟨"denom1", 120⟩]⟩]

/-- dupBalances is a snapshot for a transaction whose input side lists the
same payer twice. -/
def dupBalances : List Balance := [⟨"payer", [⟨"coin", 10⟩]⟩]

/-- dupDefs defines the denom of the duplicate-payer transaction with zero
rates. -/
def dupDefs : List DenomDefinition := [⟨"coin", "issuer", 0, 0⟩]

/-- dupTx lists the same payer twice on the input side, ten units each,
with a single matching twenty-unit output. -/
def dupTx : MultiSend :=
  ⟨[⟨"payer", [⟨"coin", 10⟩]⟩, ⟨"payer", [⟨"coin", 10⟩]⟩], [⟨"dest", [⟨"coin", 20⟩]⟩]⟩

/-- zeroBalances gives the payer a balance record with no coin entries. -/
def zeroBalances : List Balance := [⟨"acct", []⟩]

/-- zeroDefs defines the denom used by the all-zero transaction. -/
def zeroDefs : List DenomDefinition := [⟨"den", "issr", 1/2, 1/2⟩]

/-- zeroTx moves zero units of one denom from one payer to one recipient. -/
def zeroTx : MultiSend := ⟨[⟨"acct", [⟨"den", 0⟩]⟩], [⟨"dest", [⟨"den", 0⟩]⟩]⟩

/-- zeroBalancesOk gives the payer of the all-zero transaction a zero-amount
coin record for the denom it pays. -/
def zeroBalancesOk : List Balance := [⟨"acct", [⟨"den", 0⟩]⟩]

/-- undefBalances is the snapshot for the undefined-denom transaction. -/
def undefBalances : List Balance := [⟨"acct", [⟨"den", 5⟩]⟩]

/-- undefDefs is an empty definition list: the referenced denom is
undefined. -/
def undefDefs : List DenomDefinition := []

/-- undefTx is a balanced transfer of a denom that has no definition. -/
def undefTx : MultiSend := ⟨[⟨"acct", [⟨"den", 5⟩]⟩], [⟨"dest", [⟨"den", 5⟩]⟩]⟩

/-! ### Association-map lemmas -/

theorem setEntry_cons_pos {α : Type} (k2 : String) (v2 : α) (rest : List (String × α))
    (k : String) (v : α) (h : k2 = k) :
    setEntry ((k2, v2) :: rest) k v = (k2, v) :: rest := by
  simp [setEntry, h]

theorem setEntry_cons_neg {α : Type} (k2 : String) (v2 : α) (rest : List (String × α))
    (k : String) (v : α) (h : ¬ k2 = k) :
    setEntry ((k2, v2) :: rest) k v = (k2, v2) :: setEntry rest k v := by
  simp [setEntry, h]

theorem bumpEntry_cons_pos (k2 : String) (v2 : Int) (rest : List (String × Int))
    (k : String) (a : Int) (h : k2 = k) :
    bumpEntry ((k2, v2) :: rest) k a = (k2, v2 + a) :: rest := by
  simp [bumpEntry, h]

theorem bumpEntry_cons_neg (k2 : String) (v2 : Int) (rest : List (String × Int))
    (k : String) (a : Int) (h : ¬ k2 = k) :
    bumpEntry ((k2, v2) :: rest) k a = (k2, v2) :: bumpEntry rest k a := by
  simp [bumpEntry, h]

theorem lookupA_setEntry {α : Type} (m : List (String × α)) (k : String) (v : α) (d : String) :
    lookupA (setEntry m k v) d = if k = d then some v else lookupA m d := by
  induction m with
  | nil => simp [setEntry, lookupA]
  | cons p rest ih =>
      obtain ⟨k2, v2⟩ := p
      by_cases h1 : k2 = k
      · rw [setEntry_cons_pos k2 v2 rest k v h1]
        by_cases h2 : k2 = d
        · simp [lookupA, h2, h1.symm.trans h2]
        · have h3 : ¬ k = d := fun hkd => h2 (h1.trans hkd)
          simp [lookupA, h2, h3]
      · rw [setEntry_cons_neg k2 v2 rest k v h1]
        by_cases h2 : k2 = d
        · have h3 : ¬ k = d := fun hkd => h1 (h2.trans hkd.symm)
          simp [lookupA, h2, h3]
        · simp [lookupA, h2, ih]

theorem mem_of_lookupA {α : Type} {m : List (String × α)} {d : String} {v : α}
    (h : lookupA m d = some v) : (d, v) ∈ m := by
  induction m with
  | nil => simp [lookupA] at h
  | cons p rest ih =>
      obtain ⟨k2, v2⟩ := p
      by_cases hk : k2 = d
      · subst hk
        simp [lookupA] at h
        simp [h]
      · simp [lookupA, hk] at h
        simp [ih h]

theorem lookupA_eq_none {α : Type} (m : List (String × α)) (d : String) :
    lookupA m d = none ↔ d ∉ keysOf m := by
  induction m with
  | nil => simp [lookupA, keysOf]
  | cons p rest ih =>
      obtain ⟨k2, v2⟩ := p
      by_cases hk : k2 = d
      · subst hk
        simp [lookupA, keysOf]
      · simp only [lookupA, if_neg hk]
        rw [ih]
        simp only [keysOf, List.map_cons, List.mem_cons]
        constructor
        · intro hmem hor
          rcases hor with hd | hmem2
          · exact hk hd.symm
          · exact hmem hmem2
        · intro hnot hmem
          exact hnot (Or.inr hmem)

theorem amapSum_bumpEntry (m : List (String × Int)) (k : String) (a : Int) (d : String) :
    amapSum (bumpEntry m k a) d = amapSum m d + (if k = d then a else 0) := by
  induction m with
  | nil => simp [bumpEntry, amapSum]
  | cons p rest ih =>
      obtain ⟨k2, v2⟩ := p
      by_cases h1 : k2 = k
      · rw [bumpEntry_cons_pos k2 v2 rest k a h1]
        by_cases h2 : k2 = d
        · simp only [amapSum, if_pos h2, if_pos (h1.symm.trans h2)]
          ring
        · have h3 : ¬ k = d := fun hkd => h2 (h1.trans hkd)
          simp only [amapSum, if_neg h2, if_neg h3]
          ring
      · rw [bumpEntry_cons_neg k2 v2 rest k a h1]
        simp only [amapSum, ih]
        ring

theorem amapSum_eq_zero_of_notMem (m : List (String × Int)) (d : String)
    (h : d ∉ keysOf m) : amapSum m d = 0 := by
  induction m with
  | nil => simp [amapSum]
  | cons p rest ih =>
      obtain ⟨k2, v2⟩ := p
      simp only [keysOf, List.map_cons, List.mem_cons] at h
      push_neg at h
      have hk : ¬ k2 = d := fun hh => h.1 hh.symm
      simp [amapSum, hk, ih h.2]

theorem amapSum_setEntry_of_notMem (m : List (String × Int)) (k : String) (v : Int) (d : String)
    (h : k ∉ keysOf m) :
    amapSum (setEntry m k v) d = amapSum m d + (if k = d then v else 0) := by
  induction m with
  | nil => simp [setEntry, amapSum]
  | cons p rest ih =>
      obtain ⟨k2, v2⟩ := p
      simp only [keysOf, List.map_cons, List.mem_cons] at h
      push_neg at h
      have hk : ¬ k2 = k := fun hh => h.1 hh.symm
      rw [setEntry_cons_neg k2 v2 rest k v hk]
      simp only [amapSum, ih h.2]
      ring

theorem mem_keysOf_setEntry {α : Type} (m : List (String × α)) (k : String) (v : α) (d : String) :
    d ∈ keysOf (setEntry m k v) ↔ d ∈ keysOf m ∨ d = k := by
  induction m with
  | nil => simp [setEntry, keysOf]
  | cons p rest ih =>
      obtain ⟨k2, v2⟩ := p
      by_cases h1 : k2 = k
      · rw [setEntry_cons_pos k2 v2 rest k v h1]
        subst h1
        simp [keysOf]
        tauto
      · rw [setEntry_cons_neg k2 v2 rest k v h1]
        simp only [keysOf, List.map_cons, List.mem_cons] at ih ⊢
        rw [ih]
        tauto

theorem mem_keysOf_bumpEntry (m : List (String × Int)) (k : String) (a : Int) (d : String) :
    d ∈ keysOf (bumpEntry m k a) ↔ d ∈ keysOf m ∨ d = k := by
  induction m with
  | nil => simp [bumpEntry, keysOf]
  | cons p rest ih =>
      obtain ⟨k2, v2⟩ := p
      by_cases h1 : k2 = k
      · rw [bumpEntry_cons_pos k2 v2 rest k a h1]
        subst h1
        simp [keysOf]
        tauto
      · rw [bumpEntry_cons_neg k2 v2 rest k a h1]
        simp only [keysOf, List.map_cons, List.mem_cons] at ih ⊢
        rw [ih]
        tauto

theorem changesSum_setEntry_of_notMem (ch : Changes) (a : String)
    (mm : List (String × Int)) (d : String) (h : a ∉ keysOf ch) :
    changesSum (setEntry ch a mm) d = changesSum ch d + amapSum mm d := by
  induction ch with
  | nil => simp [setEntry, changesSum]
  | cons p rest ih =>
      obtain ⟨k2, m2⟩ := p
      simp only [keysOf, List.map_cons, List.mem_cons] at h
      push_neg at h
      have hk : ¬ k2 = a := fun hh => h.1 hh.symm
      rw [setEntry_cons_neg k2 m2 rest a mm hk]
      simp only [changesSum, ih h.2]
      ring

theorem changesSum_updateEntry (ch : Changes) (a : String)
    (f : List (String × Int) → List (String × Int)) (d : String) (c : Int)
    (hf : ∀ m, amapSum (f m) d = amapSum m d + c) :
    changesSum (updateEntry ch a f) d = changesSum ch d + c := by
  induction ch with
  | nil => simp [updateEntry, changesSum, hf, amapSum]
  | cons p rest ih =>
      obtain ⟨k2, m2⟩ := p
      by_cases hk : k2 = a
      · rw [show updateEntry ((k2, m2) :: rest) a f = (k2, f m2) :: rest from by
          simp [updateEntry, hk]]
        simp only [changesSum, hf]
        ring
      · rw [show updateEntry ((k2, m2) :: rest) a f = (k2, m2) :: updateEntry rest a f from by
          simp [updateEntry, hk]]
        simp only [changesSum, ih]
        ring

theorem nodupKeys_bumpEntry (m : List (String × Int)) (k : String) (a : Int)
    (h : NodupKeys m) : NodupKeys (bumpEntry m k a) := by
  induction m with
  | nil => simp [bumpEntry, NodupKeys, keysOf]
  | cons p rest ih =>
      obtain ⟨k2, v2⟩ := p
      simp only [NodupKeys, keysOf, List.map_cons, List.nodup_cons] at h
      by_cases h1 : k2 = k
      · rw [bumpEntry_cons_pos k2 v2 rest k a h1]
        simp only [NodupKeys, keysOf, List.map_cons, List.nodup_cons]
        exact h
      · rw [bumpEntry_cons_neg k2 v2 rest k a h1]
        have ih2 := ih h.2
        simp only [NodupKeys, keysOf, List.map_cons, List.nodup_cons]
        refine ⟨fun hx => ?_, ih2⟩
        rcases (mem_keysOf_bumpEntry rest k a k2).1 hx with hmem | heq
        · exact h.1 hmem
        · exact h1 heq

theorem amapSum_eq_of_lookup {m : List (String × Int)} {d : String} {v : Int}
    (hn : NodupKeys m) (h : lookupA m d = some v) : amapSum m d = v := by
  induction m with
  | nil => simp [lookupA] at h
  | cons p rest ih =>
      obtain ⟨k2, v2⟩ := p
      simp only [NodupKeys, keysOf, List.map_cons, List.nodup_cons] at hn
      by_cases hk : k2 = d
      · subst hk
        simp [lookupA] at h
        have hz : amapSum rest k2 = 0 :=
          amapSum_eq_zero_of_notMem rest k2 hn.1
        simp [amapSum, hz, h]
      · simp only [lookupA, if_neg hk] at h
        simp [amapSum, hk, ih hn.2 h]

theorem amapSum_eq_getD (m : List (String × Int)) (d : String) (h : NodupKeys m) :
    amapSum m d = getD m d := by
  cases hl : lookupA m d with
  | none =>
      rw [getD, hl]
      exact amapSum_eq_zero_of_notMem m d ((lookupA_eq_none m d).1 hl)
  | some v =>
      rw [getD, hl]
      exact amapSum_eq_of_lookup h hl

/-! ### Per-denom sums of the transaction sides -/

theorem amapSum_coinTotals (coins : List Coin) (m : List (String × Int)) (d : String) :
    amapSum (coinTotals m coins) d = amapSum m d + coinsAmtSum d coins := by
  induction coins generalizing m with
  | nil => simp [coinTotals, coinsAmtSum]
  | cons c rest ih =>
      simp only [coinTotals, coinsAmtSum, ih, amapSum_bumpEntry]
      ring

theorem amapSum_sideTotals (side : List Balance) (m : List (String × Int)) (d : String) :
    amapSum (sideTotals m side) d = amapSum m d + sideAmtSum d side := by
  induction side generalizing m with
  | nil => simp [sideTotals, sideAmtSum]
  | cons b rest ih =>
      simp only [sideTotals, sideAmtSum, ih, amapSum_coinTotals]
      ring

theorem nodupKeys_coinTotals (coins : List Coin) (m : List (String × Int))
    (h : NodupKeys m) : NodupKeys (coinTotals m coins) := by
  induction coins generalizing m with
  | nil => simpa [coinTotals] using h
  | cons c rest ih => exact ih _ (nodupKeys_bumpEntry m c.denom c.amount h)

theorem nodupKeys_sideTotals (side : List Balance) (m : List (String × Int))
    (h : NodupKeys m) : NodupKeys (sideTotals m side) := by
  induction side generalizing m with
  | nil => simpa [sideTotals] using h
  | cons b rest ih => exact ih _ (nodupKeys_coinTotals b.coins m h)

theorem nodupKeys_nil {α : Type} : NodupKeys ([] : List (String × α)) := by
  simp [NodupKeys, keysOf]

theorem mem_keysOf_coinTotals (coins : List Coin) (m : List (String × Int)) (d : String) :
    d ∈ keysOf (coinTotals m coins) ↔ d ∈ keysOf m ∨ ∃ c ∈ coins, c.denom = d := by
  induction coins generalizing m with
  | nil => simp [coinTotals]
  | cons c rest ih =>
      simp only [coinTotals, ih, mem_keysOf_bumpEntry, List.mem_cons]
      constructor
      · rintro (⟨hm | hd⟩ | ⟨c2, hc2, hd2⟩)
        · exact Or.inl hm
        · exact Or.inr ⟨c, Or.inl rfl, hd.symm⟩
        · exact Or.inr ⟨c2, Or.inr hc2, hd2⟩
      · rintro (hm | ⟨c2, hc2 | hc2, hd2⟩)
        · exact Or.inl (Or.inl hm)
        · exact Or.inl (Or.inr (hc2 ▸ hd2.symm))
        · exact Or.inr ⟨c2, hc2, hd2⟩

theorem mem_keysOf_sideTotals (side : List Balance) (m : List (String × Int)) (d : String) :
    d ∈ keysOf (sideTotals m side) ↔ d ∈ keysOf m ∨ ∃ b ∈ side, ∃ c ∈ b.coins, c.denom = d := by
  induction side generalizing m with
  | nil => simp [sideTotals]
  | cons b rest ih =>
      simp only [sideTotals, ih, mem_keysOf_coinTotals, List.mem_cons]
      constructor
      · rintro (⟨hm | ⟨c, hc, hd⟩⟩ | ⟨b2, hb2, hmem⟩)
        · exact Or.inl hm
        · exact Or.inr ⟨b, Or.inl rfl, c, hc, hd⟩
        · exact Or.inr ⟨b2, Or.inr hb2, hmem⟩
      · rintro (hm | ⟨b2, hb2 | hb2, hmem⟩)
        · exact Or.inl (Or.inl hm)
        · exact Or.inl (Or.inr (hb2 ▸ hmem))
        · exact Or.inr ⟨b2, hb2, hmem⟩

/-! ### Characterization of the conservation check -/

theorem lookupA_of_mem_nodup {α : Type} {m : List (String × α)} {d : String} {v : α}
    (hn : NodupKeys m) (h : (d, v) ∈ m) : lookupA m d = some v := by
  induction m with
  | nil => simp at h
  | cons p rest ih =>
      obtain ⟨k2, v2⟩ := p
      simp only [NodupKeys, keysOf, List.map_cons, List.nodup_cons] at hn
      rcases List.mem_cons.1 h with heq | hmem
      · rw [Prod.mk.injEq] at heq
        simp [lookupA, heq.1, heq.2]
      · by_cases hk : k2 = d
        · subst hk
          exact absurd (by simpa [keysOf] using List.mem_map_of_mem Prod.fst hmem) hn.1
        · simp [lookupA, hk, ih hn.2 hmem]

theorem entriesMatch_iff (other m : List (String × Int)) :
    entriesMatch other m = true ↔ ∀ p ∈ m, lookupA other p.1 = some p.2 := by
  induction m with
  | nil => simp [entriesMatch]
  | cons p rest ih =>
      obtain ⟨d, v⟩ := p
      cases hl : lookupA other d with
      | none =>
          simp only [entriesMatch, hl, Bool.false_eq_true, false_iff]
          push_neg
          exact ⟨(d, v), List.mem_cons_self _ _, by simp [hl]⟩
      | some w =>
          by_cases hv : v = w
          · subst hv
            simp only [entriesMatch, hl, eq_self_iff_true, if_true]
            rw [ih]
            constructor
            · intro h p hp
              rcases List.mem_cons.1 hp with heq | hmem
              · subst heq; exact hl
              · exact h p hmem
            · intro h p hp
              exact h p (List.mem_cons_of_mem _ hp)
          · simp only [entriesMatch, hl, if_neg hv, Bool.false_eq_true, false_iff]
            push_neg
            refine ⟨(d, v), List.mem_cons_self _ _, ?_⟩
            simp only [hl, ne_eq, Option.some.injEq]
            omega

theorem totalsMatch_lookup_eq {ia oa : List (String × Int)}
    (h : totalsMatch ia oa = true) : ∀ d, lookupA ia d = lookupA oa d := by
  intro d
  rw [totalsMatch, Bool.and_eq_true] at h
  obtain ⟨h1, h2⟩ := h
  rw [entriesMatch_iff] at h1 h2
  cases hi : lookupA ia d with
  | some v => exact (h1 (d, v) (mem_of_lookupA hi)).symm
  | none =>
      cases ho : lookupA oa d with
      | none => rfl
      | some w => exact absurd (h2 (d, w) (mem_of_lookupA ho)) (by simp [hi])

theorem totalsMatch_false_exists {ia oa : List (String × Int)}
    (hia : NodupKeys ia) (hoa : NodupKeys oa) (h : totalsMatch ia oa = false) :
    ∃ d, lookupA ia d ≠ lookupA oa d := by
  rw [totalsMatch, Bool.and_eq_false_iff] at h
  rcases h with h | h
  · rw [← Bool.not_eq_true, entriesMatch_iff] at h
    push_neg at h
    obtain ⟨p, hp, hne⟩ := h
    exact ⟨p.1, by rw [lookupA_of_mem_nodup hia (by simpa using hp)]; exact fun hh => hne hh.symm⟩
  · rw [← Bool.not_eq_true, entriesMatch_iff] at h
    push_neg at h
    obtain ⟨p, hp, hne⟩ := h
    exact ⟨p.1, by rw [lookupA_of_mem_nodup hoa (by simpa using hp)]; exact fun hh => hne hh⟩

/-! ### Which errors each stage can produce -/

theorem processCoin_err {issuers : List (String × String)}
    {burnRates commissionRates : List (String × ℚ)} {minAmts niiIn : List (String × Int)}
    {addr : String} {balanceCoins : List Coin} {commissions coins : List (String × Int)}
    {c : Coin} {e : Err}
    (h : processCoin issuers burnRates commissionRates minAmts niiIn addr balanceCoins
        commissions coins c = .err e) :
    e = .insufficientBalance addr c.denom := by
  simp only [processCoin] at h
  split at h
  · simp at h
  · split at h
    · simp at h
    · rename_i e2 heq
      exfalso
      split at heq
      · simp at heq
      · split at heq <;> simp at heq
    · split at h
      · simp only [Step.err.injEq] at h
        exact h.symm
      · split at h
        · simp only [Step.err.injEq] at h
          exact h.symm
        · simp at h

theorem processCoins_err {issuers : List (String × String)}
    {burnRates commissionRates : List (String × ℚ)} {minAmts niiIn : List (String × Int)}
    {addr : String} {balanceCoins : List Coin} {e : Err} :
    ∀ {commissions coins : List (String × Int)} {cs : List Coin},
    processCoins issuers burnRates commissionRates minAmts niiIn addr balanceCoins
        commissions coins cs = .err e →
    ∃ d, e = .insufficientBalance addr d := by
  intro commissions coins cs
  induction cs generalizing commissions coins with
  | nil => intro h; simp [processCoins] at h
  | cons c rest ih =>
      intro h
      simp only [processCoins] at h
      split at h
      · simp at h
      · rename_i heq
        simp only [Step.err.injEq] at h
        subst h
        exact ⟨c.denom, processCoin_err heq⟩
      · exact ih h

theorem processInputs_err {origBalances : List Balance} {issuers : List (String × String)}
    {burnRates commissionRates : List (String × ℚ)} {minAmts niiIn : List (String × Int)}
    {e : Err} :
    ∀ {commissions : List (String × Int)} {changes : Changes} {inputs : List Balance},
    processInputs origBalances issuers burnRates commissionRates minAmts niiIn
        commissions changes inputs = .err e →
    (∃ a, e = .noOriginalBalance a) ∨ (∃ a d, e = .insufficientBalance a d) := by
  intro commissions changes inputs
  induction inputs generalizing commissions changes with
  | nil => intro h; simp [processInputs] at h
  | cons input rest ih =>
      intro h
      simp only [processInputs] at h
      split at h
      · simp only [Step.err.injEq] at h
        exact Or.inl ⟨input.address, h.symm⟩
      · split at h
        · simp at h
        · rename_i heq
          simp only [Step.err.injEq] at h
          subst h
          obtain ⟨d, hd⟩ := processCoins_err heq
          exact Or.inr ⟨input.address, d, hd⟩
        · exact ih h

theorem applyCommissions_ne_err {issuers : List (String × String)} {e : Err} :
    ∀ {changes : Changes} {l : List (String × Int)},
    applyCommissions issuers changes l ≠ .err e := by
  intro changes l
  induction l generalizing changes with
  | nil => simp [applyCommissions]
  | cons p rest ih =>
      obtain ⟨d, amt⟩ := p
      simp only [applyCommissions]
      split
      · exact ih
      · split
        · simp
        · exact ih

/-! ### C3: the conservation gate -/

/-- C3: the calculator returns the mismatched input/output totals rejection
exactly when, for some denom, the per-denom entry of the input totals map
differs from that of the output totals map: differing present sums are a
mismatch, a denom present on one side only (even with a zero sum) is a
mismatch because the other lookup is absent, and when every denom's entry
agrees on both sides this check passes and the mismatch error is never
returned. -/
theorem conservation_gate_iff (bs : List Balance) (defs : List DenomDefinition)
    (tx : MultiSend) :
    calculate_balance_changes bs defs tx = .err .inputOutputMismatch ↔
      ∃ d, lookupA (sideTotals [] tx.inputs) d ≠ lookupA (sideTotals [] tx.outputs) d := by
  constructor
  · intro h
    cases hm : totalsMatch (sideTotals [] tx.inputs) (sideTotals [] tx.outputs) with
    | false =>
        exact totalsMatch_false_exists (nodupKeys_sideTotals _ _ nodupKeys_nil)
          (nodupKeys_sideTotals _ _ nodupKeys_nil) hm
    | true =>
        exfalso
        simp only [calculate_balance_changes, hm, if_true] at h
        split at h
        · simp at h
        · split at h
          · simp at h
          · split at h
            · simp at h
            · rename_i e heq
              simp only [Step.err.injEq] at h
              subst h
              rcases processInputs_err heq with ⟨a, ha⟩ | ⟨a, d, had⟩ <;> simp_all
            · split at h
              · simp at h
              · rename_i e heq
                exact applyCommissions_ne_err heq
              · simp at h
  · rintro ⟨d, hd⟩
    have hm : totalsMatch (sideTotals [] tx.inputs) (sideTotals [] tx.outputs) = false := by
      cases hm2 : totalsMatch (sideTotals [] tx.inputs) (sideTotals [] tx.outputs) with
      | false => rfl
      | true => exact absurd (totalsMatch_lookup_eq hm2 d) hd
    simp [calculate_balance_changes, hm]

/-! ### C9: the final filter -/

theorem mem_nonzeroCoins {m : List (String × Int)} {c : Coin} (h : c ∈ nonzeroCoins m) :
    c.amount ≠ 0 := by
  induction m with
  | nil => simp [nonzeroCoins] at h
  | cons p rest ih =>
      obtain ⟨d, a⟩ := p
      by_cases ha : a = 0
      · rw [show nonzeroCoins ((d, a) :: rest) = nonzeroCoins rest from by
          simp [nonzeroCoins, ha]] at h
        exact ih h
      · rw [show nonzeroCoins ((d, a) :: rest) = Coin.mk d a :: nonzeroCoins rest from by
          simp [nonzeroCoins, ha]] at h
        rcases List.mem_cons.1 h with heq | hmem
        · subst heq; simpa using ha
        · exact ih hmem

theorem mem_assemble {ch : Changes} {b : Balance} (h : b ∈ assemble ch) :
    b.coins ≠ [] ∧ ∀ c ∈ b.coins, c.amount ≠ 0 := by
  induction ch with
  | nil => simp [assemble] at h
  | cons p rest ih =>
      obtain ⟨addr, m⟩ := p
      cases hnz : nonzeroCoins m with
      | nil =>
          rw [show assemble ((addr, m) :: rest) = assemble rest from by
            simp [assemble, hnz]] at h
          exact ih h
      | cons c cs =>
          rw [show assemble ((addr, m) :: rest) = Balance.mk addr (c :: cs) :: assemble rest
              from by simp [assemble, hnz]] at h
          rcases List.mem_cons.1 h with heq | hmem
          · subst heq
            refine ⟨by simp, fun c2 hc2 => ?_⟩
            exact mem_nonzeroCoins (by rw [hnz]; simpa using hc2)
          · exact ih hmem

/-- C9: every balance of a successful result keeps a non-empty coin list
and every returned coin carries a nonzero delta: any (address, denom) pair
whose net delta is zero is omitted, and any address left with no nonzero
delta is omitted. -/
theorem ok_result_omits_zero_deltas (bs : List Balance) (defs : List DenomDefinition)
    (tx : MultiSend) (res : List Balance)
    (h : calculate_balance_changes bs defs tx = .ok res) :
    ∀ b ∈ res, b.coins ≠ [] ∧ ∀ c ∈ b.coins, c.amount ≠ 0 := by
  simp only [calculate_balance_changes] at h
  split at h
  · split at h
    · simp at h
    · split at h
      · simp at h
      · split at h
        · simp at h
        · simp at h
        · split at h
          · simp at h
          · simp at h
          · simp only [Step.ok.injEq] at h
            subst h
            exact fun b hb => mem_assemble hb
  · simp at h

theorem fx_eval : calculate_balance_changes fxBalances fxDefs fxTx = .ok fxResult := by
  have hb : burnShareQ 1000 (2/25) 1000 1000 = 80 := by
    unfold burnShareQ ceilQ; norm_num
  have hc : commShareQ 1000 (3/25) 1000 1000 = 120 := by
    unfold commShareQ ceilQ epsilonQ; norm_num [Int.ceil_eq_iff]
  simp [calculate_balance_changes, fxBalances, fxDefs, fxTx, fxResult, sideTotals, coinTotals,
    bumpEntry, totalsMatch, entriesMatch, lookupA, buildIssuers, buildBurnRates,
    buildCommissionRates, setEntry, nonIssuerSide, nonIssuerCoins, minAmountsMap, getD,
    processInputs, processCoins, processCoin, findBalance, findCoin, hb, hc,
    applyOutputs, updateEntry, applyCommissions, assemble, nonzeroCoins]

/-- Witness for C9: the first test fixture succeeds and the returned entry
of account1 is nonempty with a nonzero delta. -/
theorem ok_result_omits_zero_deltas_witness :
    (Balance.mk "account1" [Coin.mk "denom1" (-1200)]).coins ≠ [] ∧
      ∀ c ∈ (Balance.mk "account1" [Coin.mk "denom1" (-1200)]).coins, c.amount ≠ 0 :=
  ok_result_omits_zero_deltas fxBalances fxDefs fxTx fxResult fx_eval
    (Balance.mk "account1" [Coin.mk "denom1" (-1200)]) (by simp [fxResult])

/-! ### C5: a referenced denom with no definition -/

theorem lookupA_buildIssuers_eq_none {defs : List DenomDefinition} {d : String}
    (h : ∀ df ∈ defs, df.denom ≠ d) :
    ∀ m : List (String × String), lookupA m d = none →
      lookupA (buildIssuers m defs) d = none := by
  induction defs with
  | nil => intro m hm; simpa [buildIssuers] using hm
  | cons df rest ih =>
      intro m hm
      have hd : df.denom ≠ d := h df (List.mem_cons_self _ _)
      have h2 : ∀ df2 ∈ rest, df2.denom ≠ d := fun df2 hdf2 => h df2 (List.mem_cons_of_mem _ hdf2)
      rw [buildIssuers]
      exact ih h2 _ (by rw [lookupA_setEntry, if_neg hd, hm])

theorem nonIssuerCoins_none {issuers : List (String × String)} {addr : String}
    {coins : List Coin} {c : Coin} (hc : c ∈ coins)
    (hnone : lookupA issuers c.denom = none) :
    ∀ m, nonIssuerCoins issuers addr m coins = none := by
  induction coins with
  | nil => simp at hc
  | cons c2 rest ih =>
      intro m
      cases hl : lookupA issuers c2.denom with
      | none => simp [nonIssuerCoins, hl]
      | some iss =>
          have hcr : c ∈ rest := by
            rcases List.mem_cons.1 hc with heq | hmem
            · subst heq; rw [hnone] at hl; exact absurd hl (by simp)
            · exact hmem
          by_cases hiss : addr = iss
          · simp only [nonIssuerCoins, hl, if_pos hiss]
            exact ih hcr _
          · simp only [nonIssuerCoins, hl, if_neg hiss]
            exact ih hcr _

theorem nonIssuerSide_none {issuers : List (String × String)} {side : List Balance}
    {b : Balance} {c : Coin} (hb : b ∈ side) (hc : c ∈ b.coins)
    (hnone : lookupA issuers c.denom = none) :
    ∀ m, nonIssuerSide issuers m side = none := by
  induction side with
  | nil => simp at hb
  | cons b2 rest ih =>
      intro m
      rcases List.mem_cons.1 hb with heq | hmem
      · subst heq
        simp [nonIssuerSide, nonIssuerCoins_none hc hnone]
      · cases hni : nonIssuerCoins issuers b2.address m b2.coins with
        | none => simp [nonIssuerSide, hni]
        | some m2 =>
            simp only [nonIssuerSide, hni]
            exact ih hmem _

/-- C5 counterexample: on a balanced transfer of a denom absent from the
definitions, the calculator aborts (the source panics on `unwrap`); it
does not return a `Result` error. -/
theorem undef_denom_abort_counterexample :
    calculate_balance_changes undefBalances undefDefs undefTx = .abort ∧
      isErr (calculate_balance_changes undefBalances undefDefs undefTx) = false := by
  have h : calculate_balance_changes undefBalances undefDefs undefTx = .abort := by
    simp [calculate_balance_changes, undefBalances, undefDefs, undefTx, sideTotals,
      coinTotals, bumpEntry, totalsMatch, entriesMatch, lookupA, buildIssuers,
      nonIssuerSide, nonIssuerCoins, setEntry]
  exact ⟨h, by rw [h]; rfl⟩

/-- C5 (amended): when the conservation check passes and some input or
output coin references a denom no definition covers, the calculator aborts
(the modelled process panic) instead of returning any `Result` value --
in particular it does not return the `UnknownDenomination`-class rejection
the specification prescribes. -/
theorem undef_denom_aborts (bs : List Balance) (defs : List DenomDefinition) (tx : MultiSend)
    (hm : totalsMatch (sideTotals [] tx.inputs) (sideTotals [] tx.outputs) = true)
    (hbad : ∃ b ∈ tx.inputs ++ tx.outputs, ∃ c ∈ b.coins, ∀ df ∈ defs, df.denom ≠ c.denom) :
    calculate_balance_changes bs defs tx = .abort := by
  obtain ⟨b, hb, c, hc, hundef⟩ := hbad
  have hnone : lookupA (buildIssuers [] defs) c.denom = none :=
    lookupA_buildIssuers_eq_none hundef [] rfl
  rcases List.mem_append.1 hb with hbi | hbo
  · have hni : nonIssuerSide (buildIssuers [] defs) [] tx.inputs = none :=
      nonIssuerSide_none hbi hc hnone []
    simp [calculate_balance_changes, hm, hni]
  · cases hni : nonIssuerSide (buildIssuers [] defs) [] tx.inputs with
    | none => simp [calculate_balance_changes, hm, hni]
    | some niiIn =>
        have hno : nonIssuerSide (buildIssuers [] defs) [] tx.outputs = none :=
          nonIssuerSide_none hbo hc hnone []
        simp [calculate_balance_changes, hm, hni, hno]

/-- Witness for the amended C5 at the concrete undefined-denom fixture. -/
theorem undef_denom_aborts_witness :
    calculate_balance_changes undefBalances undefDefs undefTx = .abort :=
  undef_denom_aborts undefBalances undefDefs undefTx (by decide)
    ⟨⟨"acct", [⟨"den", 5⟩]⟩, by simp [undefTx, undefBalances], ⟨"den", 5⟩, by simp, by simp [undefDefs]⟩

/-! ### C2: the duplicate-input overwrite -/

/-- C2: on a transaction listing the same payer twice on the input side
(ten units of one denom each, all rates zero), the calculator succeeds and
the payer's resulting delta is only -10: storing the second input entry
replaced the first one's map instead of accumulating, so the summed -20
debit is never produced. -/
theorem duplicate_input_overwritten :
    calculate_balance_changes dupBalances dupDefs dupTx =
      .ok [⟨"payer", [⟨"coin", -10⟩]⟩, ⟨"dest", [⟨"coin", 20⟩]⟩] := by
  have hb : burnShareQ 20 0 10 20 = 0 := by
    unfold burnShareQ ceilQ; norm_num
  have hc : commShareQ 20 0 10 20 = 0 := by
    unfold commShareQ ceilQ epsilonQ; norm_num [Int.ceil_eq_iff]
  simp [calculate_balance_changes, dupBalances, dupDefs, dupTx, sideTotals, coinTotals,
    bumpEntry, totalsMatch, entriesMatch, lookupA, buildIssuers, buildBurnRates,
    buildCommissionRates, setEntry, nonIssuerSide, nonIssuerCoins, minAmountsMap, getD,
    processInputs, processCoins, processCoin, findBalance, findCoin, hb, hc,
    applyOutputs, updateEntry, applyCommissions, assemble, nonzeroCoins]

/-- C1 counterexample: on the duplicate-payer transaction the calculator
succeeds, yet for the transferred denom the positive deltas sum to 20
while the negative deltas sum to 10 in absolute value and the total burn
is 0: the claimed per-denom conservation equation fails on this result. -/
theorem conservation_counterexample :
    calculate_balance_changes dupBalances dupDefs dupTx =
      .ok [⟨"payer", [⟨"coin", -10⟩]⟩, ⟨"dest", [⟨"coin", 20⟩]⟩] ∧
    ¬ (posSum "coin" [⟨"payer", [⟨"coin", -10⟩]⟩, ⟨"dest", [⟨"coin", 20⟩]⟩] =
        negAbsSum "coin" [⟨"payer", [⟨"coin", -10⟩]⟩, ⟨"dest", [⟨"coin", 20⟩]⟩] -
          denomBurnTotal dupDefs dupTx "coin") := by
  have hb : burnShareQ 20 0 10 20 = 0 := by
    unfold burnShareQ ceilQ; norm_num
  have hc : commShareQ 20 0 10 20 = 0 := by
    unfold commShareQ ceilQ epsilonQ; norm_num [Int.ceil_eq_iff]
  have hev : calculate_balance_changes dupBalances dupDefs dupTx =
      .ok [⟨"payer", [⟨"coin", -10⟩]⟩, ⟨"dest", [⟨"coin", 20⟩]⟩] := by
    simp [calculate_balance_changes, dupBalances, dupDefs, dupTx, sideTotals, coinTotals,
      bumpEntry, totalsMatch, entriesMatch, lookupA, buildIssuers, buildBurnRates,
      buildCommissionRates, setEntry, nonIssuerSide, nonIssuerCoins, minAmountsMap, getD,
      processInputs, processCoins, processCoin, findBalance, findCoin, hb, hc,
      applyOutputs, updateEntry, applyCommissions, assemble, nonzeroCoins]
  refine ⟨hev, ?_⟩
  have hburn : denomBurnTotal dupDefs dupTx "coin" = 0 := by
    simp [denomBurnTotal, dupDefs, dupTx, buildIssuers, buildBurnRates, buildCommissionRates,
      setEntry, nonIssuerSide, nonIssuerCoins, lookupA, bumpEntry, minAmountsMap, getD,
      inputsBurnSum, coinsBurnSum, coinBurnTerm, hb]
  rw [hburn]
  simp [posSum, coinsPosSum, negAbsSum, coinsNegAbsSum]

/-! ### C8: the all-zero transaction -/

/-- C8 counterexample: a transaction moving zero units of a defined denom,
whose payer has a balance record but no coin entry for that denom, is
rejected with the insufficient-balance error instead of succeeding with an
empty delta list. -/
theorem all_zero_rejected_counterexample :
    calculate_balance_changes zeroBalances zeroDefs zeroTx =
      .err (.insufficientBalance "acct" "den") := by
  have hb : burnShareQ 0 (1/2) 0 0 = 0 := by
    unfold burnShareQ ceilQ; norm_num
  have hc : commShareQ 0 (1/2) 0 0 = 0 := by
    unfold commShareQ ceilQ epsilonQ; norm_num [Int.ceil_eq_iff]
  simp [calculate_balance_changes, zeroBalances, zeroDefs, zeroTx, sideTotals, coinTotals,
    bumpEntry, totalsMatch, entriesMatch, lookupA, buildIssuers, buildBurnRates,
    buildCommissionRates, setEntry, nonIssuerSide, nonIssuerCoins, minAmountsMap, getD,
    processInputs, processCoins, processCoin, findBalance, findCoin, hb, hc]

/-! ### C4 and C10: the per-coin balance check -/

/-- C4: for a non-issuer input coin whose pipeline lookups are available
and whose payer balance record contains an entry for the denom, per-coin
processing succeeds exactly when the recorded amount is at least the total
debit (coin amount plus burn share plus commission share); in particular a
record exactly equal to the total debit passes, and a record one unit
below it is rejected with the insufficient-balance error naming the
account and the denom. -/
theorem balance_sufficiency_iff (issuers : List (String × String))
    (burnRates commissionRates : List (String × ℚ)) (minAmts niiIn : List (String × Int))
    (addr : String) (balanceCoins : List Coin) (commissions coins : List (String × Int))
    (c : Coin) (iss : String) (minAmt : Int) (br cr : ℚ) (nii : Int) (bc : Coin)
    (hiss : lookupA issuers c.denom = some iss) (hni : ¬ addr = iss)
    (hmin : lookupA minAmts c.denom = some minAmt)
    (hbr : lookupA burnRates c.denom = some br)
    (hnii : lookupA niiIn c.denom = some nii)
    (hcr : lookupA commissionRates c.denom = some cr)
    (hbc : findCoin balanceCoins c.denom = some bc) :
    ((∃ st, processCoin issuers burnRates commissionRates minAmts niiIn addr balanceCoins
        commissions coins c = .ok st) ↔
      totalDebitQ minAmt br cr c.amount nii ≤ bc.amount) ∧
    (bc.amount = totalDebitQ minAmt br cr c.amount nii - 1 →
      processCoin issuers burnRates commissionRates minAmts niiIn addr balanceCoins
        commissions coins c = .err (.insufficientBalance addr c.denom)) := by
  have hred : processCoin issuers burnRates commissionRates minAmts niiIn addr balanceCoins
      commissions coins c =
      if bc.amount < totalDebitQ minAmt br cr c.amount nii then
        .err (.insufficientBalance addr c.denom)
      else
        .ok (bumpEntry commissions c.denom (commShareQ minAmt cr c.amount nii),
          setEntry coins c.denom (-(totalDebitQ minAmt br cr c.amount nii))) := by
    simp only [processCoin, hiss, if_neg hni, hmin, hbr, hnii, hcr, hbc, totalDebitQ]
  constructor
  · constructor
    · rintro ⟨st, hst⟩
      rw [hred] at hst
      by_cases hlt : bc.amount < totalDebitQ minAmt br cr c.amount nii
      · rw [if_pos hlt] at hst
        exact absurd hst (by simp)
      · omega
    · intro hle
      rw [hred, if_neg (by omega)]
      exact ⟨_, rfl⟩
  · intro heq
    rw [hred, if_pos (by omega)]

/-- Witness for C4 at the boundary fixture: with a 1000-unit coin, rates
0.08 and 0.12, and a balance record of exactly 1200, processing succeeds
exactly because 1200 equals the total debit. -/
theorem balance_sufficiency_iff_witness :
    ((∃ st, processCoin [("denom1", "issuer_account_A")] [("denom1", 2/25)] [("denom1", 3/25)]
        [("denom1", 1000)] [("denom1", 1000)] "account1" [⟨"denom1", 1200⟩] [] []
        ⟨"denom1", 1000⟩ = .ok st) ↔
      totalDebitQ 1000 (2/25) (3/25) 1000 1000 ≤ (Coin.mk "denom1" 1200).amount) ∧
    ((Coin.mk "denom1" 1200).amount = totalDebitQ 1000 (2/25) (3/25) 1000 1000 - 1 →
      processCoin [("denom1", "issuer_account_A")] [("denom1", 2/25)] [("denom1", 3/25)]
        [("denom1", 1000)] [("denom1", 1000)] "account1" [⟨"denom1", 1200⟩] [] []
        ⟨"denom1", 1000⟩ = .err (.insufficientBalance "account1" "denom1")) :=
  balance_sufficiency_iff [("denom1", "issuer_account_A")] [("denom1", 2/25)]
    [("denom1", 3/25)] [("denom1", 1000)] [("denom1", 1000)] "account1" [⟨"denom1", 1200⟩]
    [] [] ⟨"denom1", 1000⟩ "issuer_account_A" 1000 (2/25) (3/25) 1000 ⟨"denom1", 1200⟩
    rfl (by simp) rfl rfl rfl rfl rfl

/-- C10: when the payer's balance record has no coin entry for the denom
being paid, per-coin processing rejects with the insufficient-balance
error for that account and denom regardless of the computed total debit --
including a zero total debit for a zero-amount coin; the check demands an
explicit record, it does not compare zero available against zero owed. -/
theorem missing_coin_record_rejects (issuers : List (String × String))
    (burnRates commissionRates : List (String × ℚ)) (minAmts niiIn : List (String × Int))
    (addr : String) (balanceCoins : List Coin) (commissions coins : List (String × Int))
    (c : Coin) (iss : String)
    (hiss : lookupA issuers c.denom = some iss)
    (hmaps : addr = iss ∨ ((∃ x, lookupA minAmts c.denom = some x) ∧
      (∃ x, lookupA burnRates c.denom = some x) ∧ (∃ x, lookupA niiIn c.denom = some x) ∧
      (∃ x, lookupA commissionRates c.denom = some x)))
    (hnone : findCoin balanceCoins c.denom = none) :
    processCoin issuers burnRates commissionRates minAmts niiIn addr balanceCoins
      commissions coins c = .err (.insufficientBalance addr c.denom) := by
  by_cases haddr : addr = iss
  · simp only [processCoin, hiss, if_pos haddr, hnone]
  · rcases hmaps with h | ⟨⟨m1, hm1⟩, ⟨m2, hm2⟩, ⟨m3, hm3⟩, ⟨m4, hm4⟩⟩
    · exact absurd h haddr
    · simp only [processCoin, hiss, if_neg haddr, hm1, hm2, hm3, hm4, hnone]

/-- Witness for C10: a zero-amount non-issuer coin whose payer record has
no entry for the denom is rejected with the insufficient-balance error
even though the total debit is zero. -/
theorem missing_coin_record_rejects_witness :
    processCoin [("den", "issr")] [("den", 1/2)] [("den", 1/2)] [("den", 0)] [("den", 0)]
      "acct" [] [] [] ⟨"den", 0⟩ = .err (.insufficientBalance "acct" "den") :=
  missing_coin_record_rejects [("den", "issr")] [("den", 1/2)] [("den", 1/2)] [("den", 0)]
    [("den", 0)] "acct" [] [] [] ⟨"den", 0⟩ "issr" rfl
    (Or.inr ⟨⟨0, rfl⟩, ⟨1/2, rfl⟩, ⟨0, rfl⟩, ⟨1/2, rfl⟩⟩) rfl

/-! ### C6: issuer exemption -/

theorem nonIssuerCoins_sum {issuers : List (String × String)} {addr : String}
    {coins : List Coin} :
    ∀ {m m2 : List (String × Int)}, nonIssuerCoins issuers addr m coins = some m2 →
    ∀ d, amapSum m2 d = amapSum m d + nonIssuerCoinsAmtSum issuers addr d coins := by
  induction coins with
  | nil =>
      intro m m2 h d
      simp only [nonIssuerCoins, Option.some.injEq] at h
      subst h
      simp [nonIssuerCoinsAmtSum]
  | cons c rest ih =>
      intro m m2 h d
      cases hl : lookupA issuers c.denom with
      | none => simp only [nonIssuerCoins, hl] at h; exact absurd h (by simp)
      | some iss =>
          by_cases haddr : addr = iss
          · simp only [nonIssuerCoins, hl, if_pos haddr] at h
            have := ih h d
            simp only [nonIssuerCoinsAmtSum, hl, if_pos haddr, this]
            by_cases hd : c.denom = d <;> simp [hd] <;> ring
          · simp only [nonIssuerCoins, hl, if_neg haddr] at h
            have := ih h d
            simp only [nonIssuerCoinsAmtSum, hl, if_neg haddr, this, amapSum_bumpEntry]
            by_cases hd : c.denom = d <;> simp [hd] <;> ring

theorem nonIssuerSide_sum {issuers : List (String × String)} {side : List Balance} :
    ∀ {m m2 : List (String × Int)}, nonIssuerSide issuers m side = some m2 →
    ∀ d, amapSum m2 d = amapSum m d + nonIssuerAmtSum issuers d side := by
  induction side with
  | nil =>
      intro m m2 h d
      simp only [nonIssuerSide, Option.some.injEq] at h
      subst h
      simp [nonIssuerAmtSum]
  | cons b rest ih =>
      intro m m2 h d
      cases hni : nonIssuerCoins issuers b.address m b.coins with
      | none => simp only [nonIssuerSide, hni] at h; exact absurd h (by simp)
      | some mid =>
          simp only [nonIssuerSide, hni] at h
          have h1 := nonIssuerCoins_sum hni d
          have h2 := ih h d
          simp only [nonIssuerAmtSum, h2, h1]
          ring

/-- C6: issuer coins are exempt.  First part: a completed non-issuer
aggregation pass yields, for every denom, exactly the sum of the amounts
of the coins whose account is not the denom's issuer, so a coin addressed
to or from the issuer contributes nothing to non_issuer_input_sum or
non_issuer_output_sum.  Second part: an issuer's own input coin is
processed with no burn share and no commission share: the commission table
is left untouched and the stored debit is the coin amount alone. -/
theorem issuer_exemption (issuers : List (String × String))
    (burnRates commissionRates : List (String × ℚ)) (minAmts niiIn : List (String × Int)) :
    (∀ (side : List Balance) (m2 : List (String × Int)),
      nonIssuerSide issuers [] side = some m2 →
      ∀ d, amapSum m2 d = nonIssuerAmtSum issuers d side) ∧
    (∀ (addr : String) (balanceCoins : List Coin) (commissions coins : List (String × Int))
      (c : Coin) (iss : String) (bc : Coin),
      lookupA issuers c.denom = some iss → addr = iss →
      findCoin balanceCoins c.denom = some bc → ¬ bc.amount < c.amount →
      processCoin issuers burnRates commissionRates minAmts niiIn addr balanceCoins
        commissions coins c = .ok (commissions, setEntry coins c.denom (-c.amount))) := by
  constructor
  · intro side m2 h d
    have := nonIssuerSide_sum h d
    simpa [amapSum] using this
  · intro addr balanceCoins commissions coins c iss bc hiss haddr hbc hlt
    simp only [processCoin, hiss, if_pos haddr, hbc, if_neg hlt]

/-- Witness for C6: a side consisting of one issuer coin aggregates to the
empty map whose sums are zero, and an issuer paying 50 units of its own
denom is debited exactly 50 with the commission table unchanged. -/
theorem issuer_exemption_witness :
    (amapSum [] "denom1" =
      nonIssuerAmtSum [("denom1", "issuer_account_A")] "denom1"
        [⟨"issuer_account_A", [⟨"denom1", 7⟩]⟩]) ∧
    (processCoin [("denom1", "issuer_account_A")] [("denom1", 2/25)] [("denom1", 3/25)]
      [("denom1", 1000)] [("denom1", 1000)] "issuer_account_A" [⟨"denom1", 50⟩]
      [("other", 3)] [] ⟨"denom1", 50⟩ =
      .ok ([("other", 3)], setEntry [] "denom1" (-50))) :=
  ⟨(issuer_exemption [("denom1", "issuer_account_A")] [("denom1", 2/25)] [("denom1", 3/25)]
      [("denom1", 1000)] [("denom1", 1000)]).1
      [⟨"issuer_account_A", [⟨"denom1", 7⟩]⟩] [] (by simp [nonIssuerSide, nonIssuerCoins, lookupA]) "denom1",
   (issuer_exemption [("denom1", "issuer_account_A")] [("denom1", 2/25)] [("denom1", 3/25)]
      [("denom1", 1000)] [("denom1", 1000)]).2
      "issuer_account_A" [⟨"denom1", 50⟩] [("other", 3)] [] ⟨"denom1", 50⟩
      "issuer_account_A" ⟨"denom1", 50⟩ rfl rfl rfl (by simp)⟩

/-! ### C7: shares are non-negative -/

theorem values_nonneg_bumpEntry {m : List (String × Int)} {k : String} {a : Int}
    (hm : ∀ p ∈ m, 0 ≤ p.2) (ha : 0 ≤ a) : ∀ p ∈ bumpEntry m k a, 0 ≤ p.2 := by
  induction m with
  | nil =>
      intro p hp
      simp only [bumpEntry, List.mem_singleton] at hp
      subst hp
      exact ha
  | cons q rest ih =>
      obtain ⟨k2, v2⟩ := q
      have hv2 : (0 : Int) ≤ v2 := hm (k2, v2) (List.mem_cons_self _ _)
      have hrest : ∀ p ∈ rest, (0 : Int) ≤ p.2 := fun p hp => hm p (List.mem_cons_of_mem _ hp)
      intro p hp
      by_cases h1 : k2 = k
      · rw [bumpEntry_cons_pos k2 v2 rest k a h1] at hp
        rcases List.mem_cons.1 hp with heq | hmem
        · subst heq; exact add_nonneg hv2 ha
        · exact hrest p hmem
      · rw [bumpEntry_cons_neg k2 v2 rest k a h1] at hp
        rcases List.mem_cons.1 hp with heq | hmem
        · subst heq; exact hv2
        · exact ih hrest p hmem

theorem values_nonneg_setEntry {m : List (String × Int)} {k : String} {v : Int}
    (hm : ∀ p ∈ m, 0 ≤ p.2) (hv : 0 ≤ v) : ∀ p ∈ setEntry m k v, 0 ≤ p.2 := by
  induction m with
  | nil =>
      intro p hp
      simp only [setEntry, List.mem_singleton] at hp
      subst hp
      exact hv
  | cons q rest ih =>
      obtain ⟨k2, v2⟩ := q
      have hv2 : (0 : Int) ≤ v2 := hm (k2, v2) (List.mem_cons_self _ _)
      have hrest : ∀ p ∈ rest, (0 : Int) ≤ p.2 := fun p hp => hm p (List.mem_cons_of_mem _ hp)
      intro p hp
      by_cases h1 : k2 = k
      · rw [setEntry_cons_pos k2 v2 rest k v h1] at hp
        rcases List.mem_cons.1 hp with heq | hmem
        · subst heq; exact hv
        · exact hrest p hmem
      · rw [setEntry_cons_neg k2 v2 rest k v h1] at hp
        rcases List.mem_cons.1 hp with heq | hmem
        · subst heq; exact hv2
        · exact ih hrest p hmem

theorem nonIssuerCoins_nonneg {issuers : List (String × String)} {addr : String}
    {coins : List Coin} (hc : ∀ c ∈ coins, 0 ≤ c.amount) :
    ∀ {m m2 : List (String × Int)}, (∀ p ∈ m, 0 ≤ p.2) →
    nonIssuerCoins issuers addr m coins = some m2 → ∀ p ∈ m2, 0 ≤ p.2 := by
  induction coins with
  | nil =>
      intro m m2 hm h
      simp only [nonIssuerCoins, Option.some.injEq] at h
      subst h
      exact hm
  | cons c rest ih =>
      intro m m2 hm h
      have hcr : ∀ c2 ∈ rest, (0 : Int) ≤ c2.amount :=
        fun c2 hc2 => hc c2 (List.mem_cons_of_mem _ hc2)
      cases hl : lookupA issuers c.denom with
      | none => simp only [nonIssuerCoins, hl] at h; exact absurd h (by simp)
      | some iss =>
          by_cases haddr : addr = iss
          · simp only [nonIssuerCoins, hl, if_pos haddr] at h
            exact ih hcr hm h
          · simp only [nonIssuerCoins, hl, if_neg haddr] at h
            exact ih hcr (values_nonneg_bumpEntry hm (hc c (List.mem_cons_self _ _))) h

theorem nonIssuerSide_nonneg {issuers : List (String × String)} {side : List Balance}
    (hs : ∀ b ∈ side, ∀ c ∈ b.coins, 0 ≤ c.amount) :
    ∀ {m m2 : List (String × Int)}, (∀ p ∈ m, 0 ≤ p.2) →
    nonIssuerSide issuers m side = some m2 → ∀ p ∈ m2, 0 ≤ p.2 := by
  induction side with
  | nil =>
      intro m m2 hm h
      simp only [nonIssuerSide, Option.some.injEq] at h
      subst h
      exact hm
  | cons b rest ih =>
      intro m m2 hm h
      have hbr : ∀ b2 ∈ rest, ∀ c ∈ b2.coins, (0 : Int) ≤ c.amount :=
        fun b2 hb2 => hs b2 (List.mem_cons_of_mem _ hb2)
      cases hni : nonIssuerCoins issuers b.address m b.coins with
      | none => simp only [nonIssuerSide, hni] at h; exact absurd h (by simp)
      | some mid =>
          simp only [nonIssuerSide, hni] at h
          exact ih hbr
            (nonIssuerCoins_nonneg (hs b (List.mem_cons_self _ _)) hm hni) h

theorem getD_nonneg {m : List (String × Int)} {d : String} (hm : ∀ p ∈ m, 0 ≤ p.2) :
    0 ≤ getD m d := by
  rw [getD]
  cases hl : lookupA m d with
  | none => exact le_refl 0
  | some v => exact hm (d, v) (mem_of_lookupA hl)

theorem minAmountsMap_nonneg {niiIn niiOut : List (String × Int)}
    (h1 : ∀ p ∈ niiIn, 0 ≤ p.2) (h2 : ∀ p ∈ niiOut, 0 ≤ p.2)
    {defs : List DenomDefinition} :
    ∀ {m : List (String × Int)}, (∀ p ∈ m, 0 ≤ p.2) →
    ∀ p ∈ minAmountsMap niiIn niiOut m defs, 0 ≤ p.2 := by
  induction defs with
  | nil => intro m hm; simpa [minAmountsMap] using hm
  | cons df rest ih =>
      intro m hm
      rw [minAmountsMap]
      exact ih (values_nonneg_setEntry hm (le_min (getD_nonneg h1) (getD_nonneg h2)))

theorem lookupA_buildBurnRates {defs : List DenomDefinition} {d : String} {r : ℚ} :
    ∀ {m : List (String × ℚ)}, lookupA (buildBurnRates m defs) d = some r →
      lookupA m d = some r ∨ ∃ df ∈ defs, df.denom = d ∧ df.burn_rate = r := by
  induction defs with
  | nil => intro m h; exact Or.inl (by simpa [buildBurnRates] using h)
  | cons df rest ih =>
      intro m h
      rw [buildBurnRates] at h
      rcases ih h with hm | ⟨df2, hdf2, hd2⟩
      · rw [lookupA_setEntry] at hm
        by_cases hd : df.denom = d
        · rw [if_pos hd] at hm
          exact Or.inr ⟨df, List.mem_cons_self _ _, hd, Option.some.inj hm⟩
        · rw [if_neg hd] at hm
          exact Or.inl hm
      · exact Or.inr ⟨df2, List.mem_cons_of_mem _ hdf2, hd2⟩

theorem lookupA_buildCommissionRates {defs : List DenomDefinition} {d : String} {r : ℚ} :
    ∀ {m : List (String × ℚ)}, lookupA (buildCommissionRates m defs) d = some r →
      lookupA m d = some r ∨ ∃ df ∈ defs, df.denom = d ∧ df.commission_rate = r := by
  induction defs with
  | nil => intro m h; exact Or.inl (by simpa [buildCommissionRates] using h)
  | cons df rest ih =>
      intro m h
      rw [buildCommissionRates] at h
      rcases ih h with hm | ⟨df2, hdf2, hd2⟩
      · rw [lookupA_setEntry] at hm
        by_cases hd : df.denom = d
        · rw [if_pos hd] at hm
          exact Or.inr ⟨df, List.mem_cons_self _ _, hd, Option.some.inj hm⟩
        · rw [if_neg hd] at hm
          exact Or.inl hm
      · exact Or.inr ⟨df2, List.mem_cons_of_mem _ hdf2, hd2⟩

theorem burnShareQ_nonneg {minAmt a nii : Int} {r : ℚ} (hm : 0 ≤ minAmt) (hr : 0 ≤ r)
    (ha : 0 ≤ a) (hn : 0 ≤ nii) : 0 ≤ burnShareQ minAmt r a nii := by
  rw [burnShareQ, ceilQ]
  apply Int.ceil_nonneg
  apply div_nonneg
  · exact mul_nonneg (mul_nonneg (by exact_mod_cast hm) hr) (by exact_mod_cast ha)
  · exact_mod_cast hn

theorem commShareQ_nonneg {minAmt a nii : Int} {r : ℚ} (hm : 0 ≤ minAmt) (hr : 0 ≤ r)
    (ha : 0 ≤ a) (hn : 0 ≤ nii) : 0 ≤ commShareQ minAmt r a nii := by
  rw [commShareQ, ceilQ]
  have hq : (0 : ℚ) ≤ (minAmt : ℚ) * r * (a : ℚ) / (nii : ℚ) := by
    apply div_nonneg
    · exact mul_nonneg (mul_nonneg (by exact_mod_cast hm) hr) (by exact_mod_cast ha)
    · exact_mod_cast hn
  have he : epsilonQ < 1 := by norm_num [epsilonQ]
  have hlt : ((-1 : ℤ) : ℚ) < (minAmt : ℚ) * r * (a : ℚ) / (nii : ℚ) - epsilonQ := by
    push_cast
    linarith
  have h2 := Int.lt_ceil.mpr hlt
  omega

/-- C7: in a transaction whose input and output coin amounts are all
non-negative and whose rates lie in the interval from 0 to 1, every burn
share and every commission share fetched for an input coin from the
pipeline tables is a non-negative integer (the commission share included,
despite the epsilon subtracted before its ceiling). -/
theorem shares_nonneg (defs : List DenomDefinition) (tx : MultiSend)
    (niiIn niiOut : List (String × Int))
    (hin : ∀ b ∈ tx.inputs, ∀ c ∈ b.coins, 0 ≤ c.amount)
    (hout : ∀ b ∈ tx.outputs, ∀ c ∈ b.coins, 0 ≤ c.amount)
    (hrates : ∀ df ∈ defs, 0 ≤ df.burn_rate ∧ df.burn_rate ≤ 1 ∧
      0 ≤ df.commission_rate ∧ df.commission_rate ≤ 1)
    (hniiIn : nonIssuerSide (buildIssuers [] defs) [] tx.inputs = some niiIn)
    (hniiOut : nonIssuerSide (buildIssuers [] defs) [] tx.outputs = some niiOut) :
    ∀ b ∈ tx.inputs, ∀ c ∈ b.coins, ∀ (minAmt : Int) (br cr : ℚ) (nii : Int),
      lookupA (minAmountsMap niiIn niiOut [] defs) c.denom = some minAmt →
      lookupA (buildBurnRates [] defs) c.denom = some br →
      lookupA (buildCommissionRates [] defs) c.denom = some cr →
      lookupA niiIn c.denom = some nii →
      0 ≤ burnShareQ minAmt br c.amount nii ∧ 0 ≤ commShareQ minAmt cr c.amount nii := by
  intro b hb c hc minAmt br cr nii hmin hbr hcr hnii
  have hIn : ∀ p ∈ niiIn, (0 : Int) ≤ p.2 :=
    nonIssuerSide_nonneg hin (by simp) hniiIn
  have hOut : ∀ p ∈ niiOut, (0 : Int) ≤ p.2 :=
    nonIssuerSide_nonneg hout (by simp) hniiOut
  have hminN : 0 ≤ minAmt :=
    minAmountsMap_nonneg hIn hOut (by simp) (c.denom, minAmt) (mem_of_lookupA hmin)
  have hniiN : 0 ≤ nii := hIn (c.denom, nii) (mem_of_lookupA hnii)
  have haN : 0 ≤ c.amount := hin b hb c hc
  have hbrN : 0 ≤ br := by
    rcases lookupA_buildBurnRates hbr with hm | ⟨df, hdf, _, hr⟩
    · simp [lookupA] at hm
    · exact hr ▸ (hrates df hdf).1
  have hcrN : 0 ≤ cr := by
    rcases lookupA_buildCommissionRates hcr with hm | ⟨df, hdf, _, hr⟩
    · simp [lookupA] at hm
    · exact hr ▸ (hrates df hdf).2.2.1
  exact ⟨burnShareQ_nonneg hminN hbrN haN hniiN, commShareQ_nonneg hminN hcrN haN hniiN⟩

/-- Witness for C7 at the first test fixture: the 80-unit burn share and
the 120-unit commission share are non-negative. -/
theorem shares_nonneg_witness :
    0 ≤ burnShareQ 1000 (2/25) 1000 1000 ∧ 0 ≤ commShareQ 1000 (3/25) 1000 1000 :=
  shares_nonneg fxDefs fxTx [("denom1", 1000)] [("denom1", 1000)]
    (by intro b hb c hc; simp [fxTx] at hb; subst hb; simp at hc; subst hc; norm_num)
    (by intro b hb c hc; simp [fxTx] at hb; subst hb; simp at hc; subst hc; norm_num)
    (by intro df hdf; simp [fxDefs] at hdf; subst hdf; norm_num)
    (by rfl) (by rfl)
    ⟨"account1", [⟨"denom1", 1000⟩]⟩ (by simp [fxTx]) ⟨"denom1", 1000⟩ (by simp)
    1000 (2/25) (3/25) 1000 rfl rfl rfl rfl

/-! ### C1: conservation of deltas -/

theorem changesSum_applyOutputs {outs : List Balance} :
    ∀ {ch : Changes} (d : String),
    changesSum (applyOutputs ch outs) d = changesSum ch d + sideAmtSum d outs := by
  induction outs with
  | nil => intro ch d; simp [applyOutputs, sideAmtSum]
  | cons out rest ih =>
      intro ch d
      rw [applyOutputs, ih, sideAmtSum]
      rw [changesSum_updateEntry ch out.address _ d (coinsAmtSum d out.coins)
        (fun m => amapSum_coinTotals out.coins m d)]
      ring

theorem changesSum_applyCommissions {issuers : List (String × String)} :
    ∀ {l : List (String × Int)} {ch ch2 : Changes},
    applyCommissions issuers ch l = .ok ch2 →
    ∀ d, changesSum ch2 d = changesSum ch d + amapSum l d := by
  intro l
  induction l with
  | nil =>
      intro ch ch2 h d
      simp only [applyCommissions, Step.ok.injEq] at h
      subst h
      simp [amapSum]
  | cons p rest ih =>
      obtain ⟨dn, amt⟩ := p
      intro ch ch2 h d
      by_cases hz : amt = 0
      · rw [applyCommissions, if_pos hz] at h
        rw [ih h d, amapSum, hz]
        simp
      · rw [applyCommissions, if_neg hz] at h
        cases hl : lookupA issuers dn with
        | none => rw [hl] at h; exact absurd h (by simp)
        | some addr =>
            rw [hl] at h
            have hupd := changesSum_updateEntry ch addr (fun m => bumpEntry m dn amt) d
              (if dn = d then amt else 0) (fun m => amapSum_bumpEntry m dn amt d)
            rw [ih h d, hupd, amapSum]
            ring

theorem coinsAmtSum_nonzeroCoins (m : List (String × Int)) (d : String) :
    coinsAmtSum d (nonzeroCoins m) = amapSum m d := by
  induction m with
  | nil => simp [nonzeroCoins, coinsAmtSum, amapSum]
  | cons p rest ih =>
      obtain ⟨k, v⟩ := p
      by_cases hv : v = 0
      · rw [show nonzeroCoins ((k, v) :: rest) = nonzeroCoins rest from by
          simp [nonzeroCoins, hv]]
        rw [ih, amapSum, hv]
        simp
      · rw [show nonzeroCoins ((k, v) :: rest) = Coin.mk k v :: nonzeroCoins rest from by
          simp [nonzeroCoins, hv]]
        rw [coinsAmtSum, ih, amapSum]

theorem sideAmtSum_assemble (ch : Changes) (d : String) :
    sideAmtSum d (assemble ch) = changesSum ch d := by
  induction ch with
  | nil => simp [assemble, sideAmtSum, changesSum]
  | cons p rest ih =>
      obtain ⟨addr, m⟩ := p
      cases hnz : nonzeroCoins m with
      | nil =>
          rw [show assemble ((addr, m) :: rest) = assemble rest from by simp [assemble, hnz]]
          have hz : amapSum m d = 0 := by
            rw [← coinsAmtSum_nonzeroCoins, hnz]; rfl
          rw [ih, changesSum, hz]
          ring
      | cons c cs =>
          rw [show assemble ((addr, m) :: rest) = Balance.mk addr (c :: cs) :: assemble rest
              from by simp [assemble, hnz]]
          rw [sideAmtSum, ih, changesSum]
          have : coinsAmtSum d (c :: cs) = amapSum m d := by
            rw [← hnz, coinsAmtSum_nonzeroCoins]
          simp [this]

theorem processCoin_ok {issuers : List (String × String)}
    {burnRates commissionRates : List (String × ℚ)} {minAmts niiIn : List (String × Int)}
    {addr : String} {balanceCoins : List Coin} {commissions coins : List (String × Int)}
    {c : Coin} {commissions2 coins2 : List (String × Int)}
    (h : processCoin issuers burnRates commissionRates minAmts niiIn addr balanceCoins
        commissions coins c = .ok (commissions2, coins2)) :
    coins2 = setEntry coins c.denom
      (-(c.amount + coinBurnTerm issuers burnRates commissionRates minAmts niiIn addr c
         + coinCommTerm issuers burnRates commissionRates minAmts niiIn addr c)) ∧
    ∀ d, amapSum commissions2 d = amapSum commissions d +
      (if c.denom = d then
        coinCommTerm issuers burnRates commissionRates minAmts niiIn addr c else 0) := by
  cases hiss : lookupA issuers c.denom with
  | none => rw [processCoin, hiss] at h; exact absurd h (by simp)
  | some iss =>
      by_cases haddr : addr = iss
      · simp only [processCoin, hiss, if_pos haddr] at h
        cases hbc : findCoin balanceCoins c.denom with
        | none => simp only [hbc] at h; exact absurd h (by simp)
        | some bc =>
            simp only [hbc] at h
            by_cases hlt : bc.amount < c.amount
            · rw [if_pos hlt] at h; exact absurd h (by simp)
            · rw [if_neg hlt] at h
              simp only [Step.ok.injEq, Prod.mk.injEq] at h
              obtain ⟨hcomm, hcoins⟩ := h
              have hbt : coinBurnTerm issuers burnRates commissionRates minAmts niiIn addr c
                  = 0 := by simp [coinBurnTerm, hiss, haddr]
              have hct : coinCommTerm issuers burnRates commissionRates minAmts niiIn addr c
                  = 0 := by simp [coinCommTerm, hiss, haddr]
              constructor
              · rw [← hcoins, hbt, hct]
                norm_num
              · intro d
                rw [← hcomm, hct]
                simp
      · cases hmin : lookupA minAmts c.denom with
        | none => simp [processCoin, hiss, if_neg haddr, hmin] at h
        | some minAmt =>
        cases hbr : lookupA burnRates c.denom with
        | none => simp [processCoin, hiss, if_neg haddr, hmin, hbr] at h
        | some br =>
        cases hnii : lookupA niiIn c.denom with
        | none => simp [processCoin, hiss, if_neg haddr, hmin, hbr, hnii] at h
        | some nii =>
        cases hcr : lookupA commissionRates c.denom with
        | none => simp [processCoin, hiss, if_neg haddr, hmin, hbr, hnii, hcr] at h
        | some cr =>
            simp only [processCoin, hiss, if_neg haddr, hmin, hbr, hnii, hcr] at h
            cases hbc : findCoin balanceCoins c.denom with
            | none => simp only [hbc] at h; exact absurd h (by simp)
            | some bc =>
                simp only [hbc] at h
                by_cases hlt : bc.amount <
                    c.amount + burnShareQ minAmt br c.amount nii +
                      commShareQ minAmt cr c.amount nii
                · rw [if_pos hlt] at h; exact absurd h (by simp)
                · rw [if_neg hlt] at h
                  simp only [Step.ok.injEq, Prod.mk.injEq] at h
                  obtain ⟨hcomm, hcoins⟩ := h
                  have hbt : coinBurnTerm issuers burnRates commissionRates minAmts niiIn
                      addr c = burnShareQ minAmt br c.amount nii := by
                    simp [coinBurnTerm, hiss, haddr, hmin, hbr, hnii, hcr]
                  have hct : coinCommTerm issuers burnRates commissionRates minAmts niiIn
                      addr c = commShareQ minAmt cr c.amount nii := by
                    simp [coinCommTerm, hiss, haddr, hmin, hbr, hnii, hcr]
                  constructor
                  · rw [← hcoins, hbt, hct]
                  · intro d
                    rw [← hcomm, amapSum_bumpEntry, hct]

theorem processCoins_sums {issuers : List (String × String)}
    {burnRates commissionRates : List (String × ℚ)} {minAmts niiIn : List (String × Int)}
    {addr : String} {balanceCoins : List Coin} :
    ∀ {cs : List Coin} {commissions coins commissions2 coins2 : List (String × Int)},
    processCoins issuers burnRates commissionRates minAmts niiIn addr balanceCoins
        commissions coins cs = .ok (commissions2, coins2) →
    (cs.map Coin.denom).Nodup →
    (∀ c ∈ cs, c.denom ∉ keysOf coins) →
    ∀ d, amapSum coins2 d = amapSum coins d -
          (coinsAmtSum d cs +
           coinsBurnSum issuers burnRates commissionRates minAmts niiIn addr d cs +
           coinsCommSum issuers burnRates commissionRates minAmts niiIn addr d cs) ∧
        amapSum commissions2 d = amapSum commissions d +
           coinsCommSum issuers burnRates commissionRates minAmts niiIn addr d cs := by
  intro cs
  induction cs with
  | nil =>
      intro commissions coins commissions2 coins2 h hnd hkeys d
      simp only [processCoins, Step.ok.injEq, Prod.mk.injEq] at h
      obtain ⟨h1, h2⟩ := h
      subst h1; subst h2
      simp [coinsAmtSum, coinsBurnSum, coinsCommSum]
  | cons c rest ih =>
      intro commissions coins commissions2 coins2 h hnd hkeys d
      cases hpc : processCoin issuers burnRates commissionRates minAmts niiIn addr
          balanceCoins commissions coins c with
      | abort => rw [processCoins, hpc] at h; exact absurd h (by simp)
      | err e => rw [processCoins, hpc] at h; exact absurd h (by simp)
      | ok st =>
          obtain ⟨comm2, coinsMid⟩ := st
          rw [processCoins, hpc] at h
          obtain ⟨hcoinsMid, hcommMid⟩ := processCoin_ok hpc
          simp only [List.map_cons, List.nodup_cons] at hnd
          have hnd2 : (rest.map Coin.denom).Nodup := hnd.2
          have hkeys2 : ∀ c2 ∈ rest, c2.denom ∉ keysOf coinsMid := by
            intro c2 hc2 hmem
            rw [hcoinsMid] at hmem
            rcases (mem_keysOf_setEntry coins c.denom _ c2.denom).1 hmem with hin | heq
            · exact hkeys c2 (List.mem_cons_of_mem _ hc2) hin
            · exact hnd.1 (heq ▸ List.mem_map_of_mem Coin.denom hc2)
          obtain ⟨H1, H2⟩ := ih h hnd2 hkeys2 d
          have hset := amapSum_setEntry_of_notMem coins c.denom
            (-(c.amount + coinBurnTerm issuers burnRates commissionRates minAmts niiIn addr c
               + coinCommTerm issuers burnRates commissionRates minAmts niiIn addr c)) d
            (hkeys c (List.mem_cons_self _ _))
          constructor
          · rw [H1, hcoinsMid, hset, coinsAmtSum, coinsBurnSum, coinsCommSum]
            by_cases hd : c.denom = d <;> simp [hd] <;> ring
          · rw [H2, hcommMid d, coinsCommSum]
            ring

theorem processInputs_sums {origBalances : List Balance} {issuers : List (String × String)}
    {burnRates commissionRates : List (String × ℚ)} {minAmts niiIn : List (String × Int)} :
    ∀ {inputs : List Balance} {commissions : List (String × Int)} {changes : Changes}
      {commissions2 : List (String × Int)} {changes2 : Changes},
    processInputs origBalances issuers burnRates commissionRates minAmts niiIn
        commissions changes inputs = .ok (commissions2, changes2) →
    (inputs.map Balance.address).Nodup →
    (∀ b ∈ inputs, (b.coins.map Coin.denom).Nodup) →
    (∀ b ∈ inputs, b.address ∉ keysOf changes) →
    ∀ d, changesSum changes2 d = changesSum changes d -
          (sideAmtSum d inputs +
           inputsBurnSum issuers burnRates commissionRates minAmts niiIn d inputs +
           inputsCommSum issuers burnRates commissionRates minAmts niiIn d inputs) ∧
        amapSum commissions2 d = amapSum commissions d +
           inputsCommSum issuers burnRates commissionRates minAmts niiIn d inputs := by
  intro inputs
  induction inputs with
  | nil =>
      intro commissions changes commissions2 changes2 h hnd hdenoms hkeys d
      simp only [processInputs, Step.ok.injEq, Prod.mk.injEq] at h
      obtain ⟨h1, h2⟩ := h
      subst h1; subst h2
      simp [sideAmtSum, inputsBurnSum, inputsCommSum]
  | cons input rest ih =>
      intro commissions changes commissions2 changes2 h hnd hdenoms hkeys d
      cases hfb : findBalance origBalances input.address with
      | none => simp only [processInputs, hfb] at h; exact absurd h (by simp)
      | some bal =>
          simp only [processInputs, hfb] at h
          cases hpc : processCoins issuers burnRates commissionRates minAmts niiIn
              input.address bal.coins commissions [] input.coins with
          | abort => simp only [hpc] at h; exact absurd h (by simp)
          | err e => simp only [hpc] at h; exact absurd h (by simp)
          | ok st =>
              obtain ⟨comm2, coinsNew⟩ := st
              simp only [hpc] at h
              simp only [List.map_cons, List.nodup_cons] at hnd
              obtain ⟨C1, C2⟩ := processCoins_sums hpc
                (hdenoms input (List.mem_cons_self _ _)) (by simp [keysOf]) d
              have hkeys2 : ∀ b ∈ rest,
                  b.address ∉ keysOf (setEntry changes input.address coinsNew) := by
                intro b hb hmem
                rcases (mem_keysOf_setEntry changes input.address coinsNew b.address).1 hmem
                    with hin | heq
                · exact hkeys b (List.mem_cons_of_mem _ hb) hin
                · exact hnd.1 (heq ▸ List.mem_map_of_mem Balance.address hb)
              obtain ⟨H1, H2⟩ := ih h hnd.2
                (fun b hb => hdenoms b (List.mem_cons_of_mem _ hb)) hkeys2 d
              have hset := changesSum_setEntry_of_notMem changes input.address coinsNew d
                (hkeys input (List.mem_cons_self _ _))
              simp only [amapSum] at C1 C2
              constructor
              · rw [H1, hset, sideAmtSum, inputsBurnSum, inputsCommSum]
                omega
              · rw [H2, C2, inputsCommSum]
                ring

theorem coinsPosSum_sub_negAbs (d : String) (cs : List Coin) :
    coinsPosSum d cs - coinsNegAbsSum d cs = coinsAmtSum d cs := by
  induction cs with
  | nil => simp [coinsPosSum, coinsNegAbsSum, coinsAmtSum]
  | cons c rest ih =>
      rw [coinsPosSum, coinsNegAbsSum, coinsAmtSum]
      by_cases hd : c.denom = d
      · by_cases h0 : 0 < c.amount
        · have h1 : ¬ c.amount < 0 := by omega
          simp only [hd, h0, h1, true_and, and_false, if_true, if_false]
          omega
        · by_cases h1 : c.amount < 0
          · simp only [hd, h0, h1, true_and, and_false, if_false, if_true]
            omega
          · have hz : c.amount = 0 := by omega
            simp only [hd, h0, h1, true_and, and_false, if_false]
            omega
      · simp only [hd, false_and, if_false]
        omega

theorem posSum_sub_negAbs (d : String) (l : List Balance) :
    posSum d l - negAbsSum d l = sideAmtSum d l := by
  induction l with
  | nil => simp [posSum, negAbsSum, sideAmtSum]
  | cons b rest ih =>
      rw [posSum, negAbsSum, sideAmtSum]
      have := coinsPosSum_sub_negAbs d b.coins
      omega

/-- C1 (amended): on every successful run whose input addresses are
pairwise distinct and whose per-input coin denoms are pairwise distinct,
for every denom the sum of positive deltas equals the absolute value of
the sum of negative deltas minus the denom's total burn (the sum over
non-issuer input coins of the ceiling-rounded burn shares): total credits
plus total burn equals total debits. -/
theorem conservation_of_deltas (bs : List Balance) (defs : List DenomDefinition)
    (tx : MultiSend) (res : List Balance)
    (h : calculate_balance_changes bs defs tx = .ok res)
    (haddr : (tx.inputs.map Balance.address).Nodup)
    (hdenom : ∀ b ∈ tx.inputs, (b.coins.map Coin.denom).Nodup) :
    ∀ d, posSum d res = negAbsSum d res - denomBurnTotal defs tx d := by
  intro d
  simp only [calculate_balance_changes] at h
  split at h
  · rename_i hm
    cases heqIn : nonIssuerSide (buildIssuers [] defs) [] tx.inputs with
    | none => simp only [heqIn] at h; exact absurd h (by simp)
    | some niiIn =>
        simp only [heqIn] at h
        cases heqOut : nonIssuerSide (buildIssuers [] defs) [] tx.outputs with
        | none => simp only [heqOut] at h; exact absurd h (by simp)
        | some niiOut =>
            simp only [heqOut] at h
            cases heqPI : processInputs bs (buildIssuers [] defs) (buildBurnRates [] defs)
                (buildCommissionRates [] defs) (minAmountsMap niiIn niiOut [] defs) niiIn
                [] [] tx.inputs with
            | abort => simp only [heqPI] at h; exact absurd h (by simp)
            | err e => simp only [heqPI] at h; exact absurd h (by simp)
            | ok st =>
                obtain ⟨commissions, changes⟩ := st
                simp only [heqPI] at h
                cases heqAC : applyCommissions (buildIssuers [] defs)
                    (applyOutputs changes tx.outputs) commissions with
                | abort => simp only [heqAC] at h; exact absurd h (by simp)
                | err e => simp only [heqAC] at h; exact absurd h (by simp)
                | ok changes3 =>
                    simp only [heqAC, Step.ok.injEq] at h
                    subst h
                    obtain ⟨hch, hcm⟩ :=
                      processInputs_sums heqPI haddr hdenom (by simp [keysOf]) d
                    simp only [changesSum, amapSum] at hch hcm
                    have hAC := changesSum_applyCommissions heqAC d
                    have hAO := @changesSum_applyOutputs tx.outputs changes d
                    have hAS := sideAmtSum_assemble changes3 d
                    have hPN := posSum_sub_negAbs d (assemble changes3)
                    have hEq : sideAmtSum d tx.inputs = sideAmtSum d tx.outputs := by
                      have hl := totalsMatch_lookup_eq hm d
                      have h1 := amapSum_sideTotals tx.inputs [] d
                      have h2 := amapSum_sideTotals tx.outputs [] d
                      have hg : getD (sideTotals [] tx.inputs) d =
                          getD (sideTotals [] tx.outputs) d := by
                        rw [getD, getD, hl]
                      have hn1 := amapSum_eq_getD (sideTotals [] tx.inputs) d
                        (nodupKeys_sideTotals _ _ nodupKeys_nil)
                      have hn2 := amapSum_eq_getD (sideTotals [] tx.outputs) d
                        (nodupKeys_sideTotals _ _ nodupKeys_nil)
                      simp only [amapSum] at h1 h2
                      omega
                    have hBT : denomBurnTotal defs tx d =
                        inputsBurnSum (buildIssuers [] defs) (buildBurnRates [] defs)
                          (buildCommissionRates [] defs) (minAmountsMap niiIn niiOut [] defs)
                          niiIn d tx.inputs := by
                      simp only [denomBurnTotal, heqIn, heqOut]
                    omega
  · simp at h

/-- Witness for C1 at the first test fixture: credits 1000 + 120 equal
debits 1200 minus the 80-unit burn. -/
theorem conservation_of_deltas_witness :
    posSum "denom1" fxResult =
      negAbsSum "denom1" fxResult - denomBurnTotal fxDefs fxTx "denom1" :=
  conservation_of_deltas fxBalances fxDefs fxTx fxResult fx_eval (by simp [fxTx])
    (by intro b hb; simp [fxTx] at hb; subst hb; simp) "denom1"

/-! ### C8: the all-zero transaction, amended -/

theorem lookup_isSome_of_mem_keys {α : Type} {m : List (String × α)} {d : String}
    (h : d ∈ keysOf m) : ∃ v, lookupA m d = some v := by
  cases hl : lookupA m d with
  | none => exact absurd ((lookupA_eq_none m d).1 hl) (by simp [h])
  | some v => exact ⟨v, rfl⟩

theorem buildIssuers_isSome {defs : List DenomDefinition} {d : String} :
    ∀ {m : List (String × String)}, (d ∈ keysOf m ∨ ∃ df ∈ defs, df.denom = d) →
    ∃ v, lookupA (buildIssuers m defs) d = some v := by
  induction defs with
  | nil =>
      intro m h
      rw [buildIssuers]
      rcases h with h | ⟨df, hdf, _⟩
      · exact lookup_isSome_of_mem_keys h
      · simp at hdf
  | cons df rest ih =>
      intro m h
      rw [buildIssuers]
      apply ih
      rcases h with h | ⟨df2, hdf2, hd2⟩
      · exact Or.inl ((mem_keysOf_setEntry m df.denom df.issuer d).2 (Or.inl h))
      · rcases List.mem_cons.1 hdf2 with heq | hmem
        · subst heq
          exact Or.inl ((mem_keysOf_setEntry m df2.denom df2.issuer d).2 (Or.inr hd2.symm))
        · exact Or.inr ⟨df2, hmem, hd2⟩

theorem buildBurnRates_isSome {defs : List DenomDefinition} {d : String} :
    ∀ {m : List (String × ℚ)}, (d ∈ keysOf m ∨ ∃ df ∈ defs, df.denom = d) →
    ∃ v, lookupA (buildBurnRates m defs) d = some v := by
  induction defs with
  | nil =>
      intro m h
      rw [buildBurnRates]
      rcases h with h | ⟨df, hdf, _⟩
      · exact lookup_isSome_of_mem_keys h
      · simp at hdf
  | cons df rest ih =>
      intro m h
      rw [buildBurnRates]
      apply ih
      rcases h with h | ⟨df2, hdf2, hd2⟩
      · exact Or.inl ((mem_keysOf_setEntry m df.denom df.burn_rate d).2 (Or.inl h))
      · rcases List.mem_cons.1 hdf2 with heq | hmem
        · subst heq
          exact Or.inl ((mem_keysOf_setEntry m df2.denom df2.burn_rate d).2 (Or.inr hd2.symm))
        · exact Or.inr ⟨df2, hmem, hd2⟩

theorem buildCommissionRates_isSome {defs : List DenomDefinition} {d : String} :
    ∀ {m : List (String × ℚ)}, (d ∈ keysOf m ∨ ∃ df ∈ defs, df.denom = d) →
    ∃ v, lookupA (buildCommissionRates m defs) d = some v := by
  induction defs with
  | nil =>
      intro m h
      rw [buildCommissionRates]
      rcases h with h | ⟨df, hdf, _⟩
      · exact lookup_isSome_of_mem_keys h
      · simp at hdf
  | cons df rest ih =>
      intro m h
      rw [buildCommissionRates]
      apply ih
      rcases h with h | ⟨df2, hdf2, hd2⟩
      · exact Or.inl ((mem_keysOf_setEntry m df.denom df.commission_rate d).2 (Or.inl h))
      · rcases List.mem_cons.1 hdf2 with heq | hmem
        · subst heq
          exact Or.inl
            ((mem_keysOf_setEntry m df2.denom df2.commission_rate d).2 (Or.inr hd2.symm))
        · exact Or.inr ⟨df2, hmem, hd2⟩

theorem minAmountsMap_isSome {niiIn niiOut : List (String × Int)}
    {defs : List DenomDefinition} {d : String} :
    ∀ {m : List (String × Int)}, (d ∈ keysOf m ∨ ∃ df ∈ defs, df.denom = d) →
    ∃ v, lookupA (minAmountsMap niiIn niiOut m defs) d = some v := by
  induction defs with
  | nil =>
      intro m h
      rw [minAmountsMap]
      rcases h with h | ⟨df, hdf, _⟩
      · exact lookup_isSome_of_mem_keys h
      · simp at hdf
  | cons df rest ih =>
      intro m h
      rw [minAmountsMap]
      apply ih
      rcases h with h | ⟨df2, hdf2, hd2⟩
      · exact Or.inl ((mem_keysOf_setEntry m df.denom _ d).2 (Or.inl h))
      · rcases List.mem_cons.1 hdf2 with heq | hmem
        · subst heq
          exact Or.inl ((mem_keysOf_setEntry m df2.denom _ d).2 (Or.inr hd2.symm))
        · exact Or.inr ⟨df2, hmem, hd2⟩

theorem nonIssuerCoins_keys_mono {issuers : List (String × String)} {addr : String}
    {cs : List Coin} {k : String} :
    ∀ {m m2 : List (String × Int)}, nonIssuerCoins issuers addr m cs = some m2 →
    k ∈ keysOf m → k ∈ keysOf m2 := by
  induction cs with
  | nil =>
      intro m m2 h hk
      simp only [nonIssuerCoins, Option.some.injEq] at h
      exact h ▸ hk
  | cons c rest ih =>
      intro m m2 h hk
      cases hl : lookupA issuers c.denom with
      | none => simp only [nonIssuerCoins, hl] at h; exact absurd h (by simp)
      | some iss =>
          by_cases haddr : addr = iss
          · simp only [nonIssuerCoins, hl, if_pos haddr] at h
            exact ih h hk
          · simp only [nonIssuerCoins, hl, if_neg haddr] at h
            exact ih h ((mem_keysOf_bumpEntry m c.denom c.amount k).2 (Or.inl hk))

theorem nonIssuerSide_keys_mono {issuers : List (String × String)} {side : List Balance}
    {k : String} :
    ∀ {m m2 : List (String × Int)}, nonIssuerSide issuers m side = some m2 →
    k ∈ keysOf m → k ∈ keysOf m2 := by
  induction side with
  | nil =>
      intro m m2 h hk
      simp only [nonIssuerSide, Option.some.injEq] at h
      exact h ▸ hk
  | cons b rest ih =>
      intro m m2 h hk
      cases hni : nonIssuerCoins issuers b.address m b.coins with
      | none => simp only [nonIssuerSide, hni] at h; exact absurd h (by simp)
      | some mid =>
          simp only [nonIssuerSide, hni] at h
          exact ih h (nonIssuerCoins_keys_mono hni hk)

theorem nonIssuerCoins_key_of_mem {issuers : List (String × String)} {addr : String}
    {cs : List Coin} {c : Coin} {iss : String} (hc : c ∈ cs)
    (hiss : lookupA issuers c.denom = some iss) (haddr : ¬ addr = iss) :
    ∀ {m m2 : List (String × Int)}, nonIssuerCoins issuers addr m cs = some m2 →
    c.denom ∈ keysOf m2 := by
  induction cs with
  | nil => simp at hc
  | cons c2 rest ih =>
      intro m m2 h
      cases hl : lookupA issuers c2.denom with
      | none => simp only [nonIssuerCoins, hl] at h; exact absurd h (by simp)
      | some iss2 =>
          rcases List.mem_cons.1 hc with heq | hmem
          · subst heq
            rw [hiss] at hl
            injection hl with hl2
            subst hl2
            simp only [nonIssuerCoins, hiss, if_neg haddr] at h
            have hstep : c.denom ∈ keysOf (bumpEntry m c.denom c.amount) :=
              (mem_keysOf_bumpEntry m c.denom c.amount c.denom).2 (Or.inr rfl)
            exact nonIssuerCoins_keys_mono h hstep
          · by_cases haddr2 : addr = iss2
            · simp only [nonIssuerCoins, hl, if_pos haddr2] at h
              exact ih hmem h
            · simp only [nonIssuerCoins, hl, if_neg haddr2] at h
              exact ih hmem h

theorem nonIssuerSide_key_of_mem {issuers : List (String × String)} {side : List Balance}
    {b : Balance} {c : Coin} {iss : String} (hb : b ∈ side) (hc : c ∈ b.coins)
    (hiss : lookupA issuers c.denom = some iss) (haddr : ¬ b.address = iss) :
    ∀ {m m2 : List (String × Int)}, nonIssuerSide issuers m side = some m2 →
    c.denom ∈ keysOf m2 := by
  induction side with
  | nil => simp at hb
  | cons b2 rest ih =>
      intro m m2 h
      cases hni : nonIssuerCoins issuers b2.address m b2.coins with
      | none => simp only [nonIssuerSide, hni] at h; exact absurd h (by simp)
      | some mid =>
          simp only [nonIssuerSide, hni] at h
          rcases List.mem_cons.1 hb with heq | hmem
          · subst heq
            exact nonIssuerSide_keys_mono h (nonIssuerCoins_key_of_mem hc hiss haddr hni)
          · exact ih hmem h

theorem values_zero_bumpEntry {m : List (String × Int)} {k : String} {a : Int}
    (hm : allZeroA m) (ha : a = 0) : allZeroA (bumpEntry m k a) := by
  induction m with
  | nil =>
      intro p hp
      simp only [bumpEntry, List.mem_singleton] at hp
      subst hp
      exact ha
  | cons q rest ih =>
      obtain ⟨k2, v2⟩ := q
      have hv2 : v2 = 0 := hm (k2, v2) (List.mem_cons_self _ _)
      have hrest : allZeroA rest := fun p hp => hm p (List.mem_cons_of_mem _ hp)
      intro p hp
      by_cases h1 : k2 = k
      · rw [bumpEntry_cons_pos k2 v2 rest k a h1] at hp
        rcases List.mem_cons.1 hp with heq | hmem
        · subst heq; simp [hv2, ha]
        · exact hrest p hmem
      · rw [bumpEntry_cons_neg k2 v2 rest k a h1] at hp
        rcases List.mem_cons.1 hp with heq | hmem
        · subst heq; exact hv2
        · exact ih hrest p hmem

theorem values_zero_setEntry {α : Type} {P : α → Prop} {m : List (String × α)} {k : String}
    {v : α} (hm : ∀ p ∈ m, P p.2) (hv : P v) : ∀ p ∈ setEntry m k v, P p.2 := by
  induction m with
  | nil =>
      intro p hp
      simp only [setEntry, List.mem_singleton] at hp
      subst hp
      exact hv
  | cons q rest ih =>
      obtain ⟨k2, v2⟩ := q
      have hv2 : P v2 := hm (k2, v2) (List.mem_cons_self _ _)
      have hrest : ∀ p ∈ rest, P p.2 := fun p hp => hm p (List.mem_cons_of_mem _ hp)
      intro p hp
      by_cases h1 : k2 = k
      · rw [setEntry_cons_pos k2 v2 rest k v h1] at hp
        rcases List.mem_cons.1 hp with heq | hmem
        · subst heq; exact hv
        · exact hrest p hmem
      · rw [setEntry_cons_neg k2 v2 rest k v h1] at hp
        rcases List.mem_cons.1 hp with heq | hmem
        · subst heq; exact hv2
        · exact ih hrest p hmem

theorem values_zero_coinTotals {cs : List Coin} (hcs : ∀ c ∈ cs, c.amount = 0) :
    ∀ {m : List (String × Int)}, allZeroA m → allZeroA (coinTotals m cs) := by
  induction cs with
  | nil => intro m hm; simpa [coinTotals] using hm
  | cons c rest ih =>
      intro m hm
      rw [coinTotals]
      exact ih (fun c2 hc2 => hcs c2 (List.mem_cons_of_mem _ hc2))
        (values_zero_bumpEntry hm (hcs c (List.mem_cons_self _ _)))

theorem sideTotals_values_zero {side : List Balance}
    (hz : ∀ b ∈ side, ∀ c ∈ b.coins, c.amount = 0) :
    ∀ {m : List (String × Int)}, allZeroA m → allZeroA (sideTotals m side) := by
  induction side with
  | nil => intro m hm; simpa [sideTotals] using hm
  | cons b rest ih =>
      intro m hm
      rw [sideTotals]
      exact ih (fun b2 hb2 => hz b2 (List.mem_cons_of_mem _ hb2))
        (values_zero_coinTotals (hz b (List.mem_cons_self _ _)) hm)

theorem changes_zero_updateEntry {ch : Changes} {a : String}
    {f : List (String × Int) → List (String × Int)} (hch : allZeroC ch)
    (hf : ∀ mm, allZeroA mm → allZeroA (f mm)) : allZeroC (updateEntry ch a f) := by
  induction ch with
  | nil =>
      intro p hp
      simp only [updateEntry, List.mem_singleton] at hp
      subst hp
      exact hf [] (by intro q hq; simp at hq)
  | cons q rest ih =>
      obtain ⟨k2, m2⟩ := q
      have hm2 : allZeroA m2 := hch (k2, m2) (List.mem_cons_self _ _)
      have hrest : allZeroC rest := fun p hp => hch p (List.mem_cons_of_mem _ hp)
      intro p hp
      by_cases h1 : k2 = a
      · rw [show updateEntry ((k2, m2) :: rest) a f = (k2, f m2) :: rest from by
          simp [updateEntry, h1]] at hp
        rcases List.mem_cons.1 hp with heq | hmem
        · subst heq; exact hf m2 hm2
        · exact hrest p hmem
      · rw [show updateEntry ((k2, m2) :: rest) a f = (k2, m2) :: updateEntry rest a f from by
          simp [updateEntry, h1]] at hp
        rcases List.mem_cons.1 hp with heq | hmem
        · subst heq; exact hm2
        · exact ih hrest p hmem

theorem applyOutputs_zero {outs : List Balance}
    (houts : ∀ b ∈ outs, ∀ c ∈ b.coins, c.amount = 0) :
    ∀ {ch : Changes}, allZeroC ch → allZeroC (applyOutputs ch outs) := by
  induction outs with
  | nil => intro ch hch; simpa [applyOutputs] using hch
  | cons out rest ih =>
      intro ch hch
      rw [applyOutputs]
      exact ih (fun b hb => houts b (List.mem_cons_of_mem _ hb))
        (changes_zero_updateEntry hch
          (fun mm hmm => values_zero_coinTotals (houts out (List.mem_cons_self _ _)) hmm))

theorem applyCommissions_zero {issuers : List (String × String)} {l : List (String × Int)}
    (hl : allZeroA l) : ∀ ch : Changes, applyCommissions issuers ch l = .ok ch := by
  induction l with
  | nil => intro ch; rfl
  | cons p rest ih =>
      obtain ⟨dn, amt⟩ := p
      intro ch
      have hz : amt = 0 := hl (dn, amt) (List.mem_cons_self _ _)
      rw [applyCommissions, if_pos hz]
      exact ih (fun p hp => hl p (List.mem_cons_of_mem _ hp)) ch

theorem nonzeroCoins_eq_nil {m : List (String × Int)} (hm : allZeroA m) :
    nonzeroCoins m = [] := by
  induction m with
  | nil => rfl
  | cons p rest ih =>
      obtain ⟨k, v⟩ := p
      have hv : v = 0 := hm (k, v) (List.mem_cons_self _ _)
      rw [nonzeroCoins, if_pos hv]
      exact ih (fun p hp => hm p (List.mem_cons_of_mem _ hp))

theorem assemble_zero {ch : Changes} (hch : allZeroC ch) : assemble ch = [] := by
  induction ch with
  | nil => rfl
  | cons p rest ih =>
      obtain ⟨addr, m⟩ := p
      have hm : allZeroA m := hch (addr, m) (List.mem_cons_self _ _)
      rw [assemble, nonzeroCoins_eq_nil hm]
      exact ih (fun p hp => hch p (List.mem_cons_of_mem _ hp))

theorem burnShareQ_zero (minAmt : Int) (r : ℚ) (nii : Int) :
    burnShareQ minAmt r 0 nii = 0 := by
  simp [burnShareQ, ceilQ]

theorem commShareQ_zero (minAmt : Int) (r : ℚ) (nii : Int) :
    commShareQ minAmt r 0 nii = 0 := by
  have h : (minAmt : ℚ) * r * ((0 : Int) : ℚ) / (nii : ℚ) - epsilonQ = -epsilonQ := by
    push_cast
    ring
  rw [commShareQ, ceilQ, h]
  rw [show (0 : Int) = ((0 : Int)) from rfl]
  rw [Int.ceil_eq_iff]
  constructor
  · norm_num [epsilonQ]
  · norm_num [epsilonQ]

theorem nonIssuerCoins_isSome {issuers : List (String × String)} {addr : String}
    {cs : List Coin} (h : ∀ c ∈ cs, ∃ v, lookupA issuers c.denom = some v) :
    ∀ m, ∃ m2, nonIssuerCoins issuers addr m cs = some m2 := by
  induction cs with
  | nil => intro m; exact ⟨m, rfl⟩
  | cons c rest ih =>
      intro m
      obtain ⟨iss, hiss⟩ := h c (List.mem_cons_self _ _)
      have h2 := fun c2 hc2 => h c2 (List.mem_cons_of_mem _ hc2)
      by_cases haddr : addr = iss
      · obtain ⟨m2, hm2⟩ := ih h2 m
        exact ⟨m2, by simp only [nonIssuerCoins, hiss, if_pos haddr, hm2]⟩
      · obtain ⟨m2, hm2⟩ := ih h2 (bumpEntry m c.denom c.amount)
        exact ⟨m2, by simp only [nonIssuerCoins, hiss, if_neg haddr, hm2]⟩

theorem nonIssuerSide_isSome {issuers : List (String × String)} {side : List Balance}
    (h : ∀ b ∈ side, ∀ c ∈ b.coins, ∃ v, lookupA issuers c.denom = some v) :
    ∀ m, ∃ m2, nonIssuerSide issuers m side = some m2 := by
  induction side with
  | nil => intro m; exact ⟨m, rfl⟩
  | cons b rest ih =>
      intro m
      obtain ⟨mid, hmid⟩ :=
        @nonIssuerCoins_isSome issuers b.address b.coins (h b (List.mem_cons_self _ _)) m
      obtain ⟨m2, hm2⟩ := ih (fun b2 hb2 => h b2 (List.mem_cons_of_mem _ hb2)) mid
      exact ⟨m2, by simp only [nonIssuerSide, hmid, hm2]⟩

theorem totalsMatch_of_lookup_eq {ia oa : List (String × Int)}
    (hia : NodupKeys ia) (hoa : NodupKeys oa)
    (h : ∀ d, lookupA ia d = lookupA oa d) : totalsMatch ia oa = true := by
  rw [totalsMatch, Bool.and_eq_true]
  constructor
  · rw [entriesMatch_iff]
    intro p hp
    rw [← h p.1]
    exact lookupA_of_mem_nodup hia (by simpa using hp)
  · rw [entriesMatch_iff]
    intro p hp
    rw [h p.1]
    exact lookupA_of_mem_nodup hoa (by simpa using hp)

theorem processCoin_zero_ok {issuers : List (String × String)}
    {burnRates commissionRates : List (String × ℚ)} {minAmts niiIn : List (String × Int)}
    {addr : String} {balanceCoins : List Coin} (commissions coins : List (String × Int))
    {c : Coin} {iss : String} {bc : Coin}
    (hiss : lookupA issuers c.denom = some iss) (hz : c.amount = 0)
    (hmaps : addr = iss ∨ ((∃ x, lookupA minAmts c.denom = some x) ∧
      (∃ x, lookupA burnRates c.denom = some x) ∧ (∃ x, lookupA niiIn c.denom = some x) ∧
      (∃ x, lookupA commissionRates c.denom = some x)))
    (hbc : findCoin balanceCoins c.denom = some bc) (hbcn : 0 ≤ bc.amount) :
    ∃ comm2 coins2, processCoin issuers burnRates commissionRates minAmts niiIn addr
        balanceCoins commissions coins c = .ok (comm2, coins2) ∧
      (allZeroA commissions → allZeroA comm2) ∧ (allZeroA coins → allZeroA coins2) := by
  by_cases haddr : addr = iss
  · refine ⟨commissions, setEntry coins c.denom (-c.amount), ?_, fun h => h, ?_⟩
    · have hlt : ¬ bc.amount < c.amount := by omega
      simp only [processCoin, hiss, if_pos haddr, hbc, if_neg hlt]
    · intro h
      exact values_zero_setEntry (P := fun x : Int => x = 0) h (by simp [hz])
  · rcases hmaps with h | ⟨⟨minAmt, hm1⟩, ⟨br, hm2⟩, ⟨nii, hm3⟩, ⟨cr, hm4⟩⟩
    · exact absurd h haddr
    · have hbz : burnShareQ minAmt br c.amount nii = 0 := by
        rw [hz]; exact burnShareQ_zero _ _ _
      have hcz : commShareQ minAmt cr c.amount nii = 0 := by
        rw [hz]; exact commShareQ_zero _ _ _
      have htot : c.amount + burnShareQ minAmt br c.amount nii +
          commShareQ minAmt cr c.amount nii = 0 := by
        rw [hbz, hcz, hz]
        ring
      have hlt : ¬ bc.amount < c.amount + burnShareQ minAmt br c.amount nii +
          commShareQ minAmt cr c.amount nii := by
        rw [htot]; omega
      refine ⟨bumpEntry commissions c.denom (commShareQ minAmt cr c.amount nii),
        setEntry coins c.denom (-(c.amount + burnShareQ minAmt br c.amount nii +
          commShareQ minAmt cr c.amount nii)), ?_, ?_, ?_⟩
      · simp only [processCoin, hiss, if_neg haddr, hm1, hm2, hm3, hm4, hbc, if_neg hlt]
      · intro h
        exact values_zero_bumpEntry h hcz
      · intro h
        exact values_zero_setEntry (P := fun x : Int => x = 0) h (by rw [htot]; simp)

theorem processCoins_zero_ok {issuers : List (String × String)}
    {burnRates commissionRates : List (String × ℚ)} {minAmts niiIn : List (String × Int)}
    {addr : String} {balanceCoins : List Coin} :
    ∀ {cs : List Coin},
    (∀ c ∈ cs, c.amount = 0) →
    (∀ c ∈ cs, ∃ iss, lookupA issuers c.denom = some iss ∧
      (addr = iss ∨ ((∃ x, lookupA minAmts c.denom = some x) ∧
        (∃ x, lookupA burnRates c.denom = some x) ∧ (∃ x, lookupA niiIn c.denom = some x) ∧
        (∃ x, lookupA commissionRates c.denom = some x)))) →
    (∀ c ∈ cs, ∃ bc, findCoin balanceCoins c.denom = some bc ∧ 0 ≤ bc.amount) →
    ∀ {commissions coins : List (String × Int)}, allZeroA commissions → allZeroA coins →
    ∃ comm2 coins2, processCoins issuers burnRates commissionRates minAmts niiIn addr
        balanceCoins commissions coins cs = .ok (comm2, coins2) ∧
      allZeroA comm2 ∧ allZeroA coins2 := by
  intro cs
  induction cs with
  | nil =>
      intro _ _ _ commissions coins hc hk
      exact ⟨commissions, coins, rfl, hc, hk⟩
  | cons c rest ih =>
      intro hz hmaps hbal commissions coins hc hk
      obtain ⟨iss, hiss, hdisj⟩ := hmaps c (List.mem_cons_self _ _)
      obtain ⟨bc, hbc, hbcn⟩ := hbal c (List.mem_cons_self _ _)
      obtain ⟨comm2, coins2, hpc, f1, f2⟩ :=
        processCoin_zero_ok commissions coins hiss
          (hz c (List.mem_cons_self _ _)) hdisj hbc hbcn
      obtain ⟨comm3, coins3, hrec, hc3, hk3⟩ :=
        ih (fun c2 hc2 => hz c2 (List.mem_cons_of_mem _ hc2))
          (fun c2 hc2 => hmaps c2 (List.mem_cons_of_mem _ hc2))
          (fun c2 hc2 => hbal c2 (List.mem_cons_of_mem _ hc2)) (f1 hc) (f2 hk)
      exact ⟨comm3, coins3, by rw [processCoins, hpc]; exact hrec, hc3, hk3⟩

theorem processInputs_zero_ok {bs : List Balance} {issuers : List (String × String)}
    {burnRates commissionRates : List (String × ℚ)} {minAmts niiIn : List (String × Int)} :
    ∀ {inputs : List Balance},
    (∀ b ∈ inputs, ∀ c ∈ b.coins, c.amount = 0) →
    (∀ b ∈ inputs, ∀ c ∈ b.coins, ∃ iss, lookupA issuers c.denom = some iss ∧
      (b.address = iss ∨ ((∃ x, lookupA minAmts c.denom = some x) ∧
        (∃ x, lookupA burnRates c.denom = some x) ∧ (∃ x, lookupA niiIn c.denom = some x) ∧
        (∃ x, lookupA commissionRates c.denom = some x)))) →
    (∀ b ∈ inputs, ∃ bal, findBalance bs b.address = some bal ∧
      ∀ c ∈ b.coins, ∃ bc, findCoin bal.coins c.denom = some bc ∧ 0 ≤ bc.amount) →
    ∀ (commissions : List (String × Int)) (changes : Changes),
    allZeroA commissions → allZeroC changes →
    ∃ comm2 changes2, processInputs bs issuers burnRates commissionRates minAmts niiIn
        commissions changes inputs = .ok (comm2, changes2) ∧
      allZeroA comm2 ∧ allZeroC changes2 := by
  intro inputs
  induction inputs with
  | nil =>
      intro _ _ _ commissions changes hc hch
      exact ⟨commissions, changes, rfl, hc, hch⟩
  | cons input rest ih =>
      intro hz hmaps hbal commissions changes hc hch
      obtain ⟨bal, hfb, hcoins⟩ := hbal input (List.mem_cons_self _ _)
      obtain ⟨comm2, coinsNew, hpc, hc2, hk2⟩ :=
        processCoins_zero_ok
          (hz input (List.mem_cons_self _ _)) (hmaps input (List.mem_cons_self _ _))
          hcoins hc (fun p hp => absurd hp (List.not_mem_nil p))
      obtain ⟨comm3, changes3, hrec, hc3, hch3⟩ :=
        ih (fun b hb => hz b (List.mem_cons_of_mem _ hb))
          (fun b hb => hmaps b (List.mem_cons_of_mem _ hb))
          (fun b hb => hbal b (List.mem_cons_of_mem _ hb)) comm2
          (setEntry changes input.address coinsNew) hc2
          (values_zero_setEntry (P := allZeroA) (k := input.address) hch hk2)
      refine ⟨comm3, changes3, ?_, hc3, hch3⟩
      simp only [processInputs, hfb, hpc]
      exact hrec

/-- C8 (amended): a transaction in which every input and output coin
amount is zero succeeds with an empty delta list, provided the same denoms
appear on both sides, every referenced denom has a definition, and each
payer has a balance record containing a non-negatively funded coin entry
for every denom it pays; with any burn and commission rates. -/
theorem all_zero_ok_empty (bs : List Balance) (defs : List DenomDefinition) (tx : MultiSend)
    (hinz : ∀ b ∈ tx.inputs, ∀ c ∈ b.coins, c.amount = 0)
    (houtz : ∀ b ∈ tx.outputs, ∀ c ∈ b.coins, c.amount = 0)
    (hmatch : ∀ d, (∃ b ∈ tx.inputs, ∃ c ∈ b.coins, c.denom = d) ↔
        (∃ b ∈ tx.outputs, ∃ c ∈ b.coins, c.denom = d))
    (hdef : ∀ b ∈ tx.inputs ++ tx.outputs, ∀ c ∈ b.coins, ∃ df ∈ defs, df.denom = c.denom)
    (hbal : ∀ b ∈ tx.inputs, ∃ bal, findBalance bs b.address = some bal ∧
        ∀ c ∈ b.coins, ∃ bc, findCoin bal.coins c.denom = some bc ∧ 0 ≤ bc.amount) :
    calculate_balance_changes bs defs tx = .ok [] := by
  have hdefIn : ∀ b ∈ tx.inputs, ∀ c ∈ b.coins, ∃ df ∈ defs, df.denom = c.denom :=
    fun b hb => hdef b (List.mem_append.2 (Or.inl hb))
  have hdefOut : ∀ b ∈ tx.outputs, ∀ c ∈ b.coins, ∃ df ∈ defs, df.denom = c.denom :=
    fun b hb => hdef b (List.mem_append.2 (Or.inr hb))
  have hm : totalsMatch (sideTotals [] tx.inputs) (sideTotals [] tx.outputs) = true := by
    apply totalsMatch_of_lookup_eq (nodupKeys_sideTotals _ _ nodupKeys_nil)
      (nodupKeys_sideTotals _ _ nodupKeys_nil)
    intro d
    have hkeysIff : d ∈ keysOf (sideTotals ([] : List (String × Int)) tx.inputs) ↔
        d ∈ keysOf (sideTotals ([] : List (String × Int)) tx.outputs) := by
      rw [mem_keysOf_sideTotals, mem_keysOf_sideTotals]
      constructor
      · rintro (h0 | h0)
        · simp [keysOf] at h0
        · exact Or.inr ((hmatch d).1 h0)
      · rintro (h0 | h0)
        · simp [keysOf] at h0
        · exact Or.inr ((hmatch d).2 h0)
    cases hi : lookupA (sideTotals [] tx.inputs) d with
    | none =>
        cases ho : lookupA (sideTotals [] tx.outputs) d with
        | none => rfl
        | some w =>
            exfalso
            have hw : d ∈ keysOf (sideTotals ([] : List (String × Int)) tx.outputs) :=
              List.mem_map_of_mem Prod.fst (mem_of_lookupA ho)
            exact ((lookupA_eq_none _ d).1 hi) (hkeysIff.2 hw)
    | some v =>
        have hv : v = 0 := sideTotals_values_zero hinz
          (fun p hp => absurd hp (List.not_mem_nil p)) (d, v) (mem_of_lookupA hi)
        have hk : d ∈ keysOf (sideTotals ([] : List (String × Int)) tx.inputs) :=
          List.mem_map_of_mem Prod.fst (mem_of_lookupA hi)
        obtain ⟨w, hw⟩ := lookup_isSome_of_mem_keys (hkeysIff.1 hk)
        have hwz : w = 0 := sideTotals_values_zero houtz
          (fun p hp => absurd hp (List.not_mem_nil p)) (d, w) (mem_of_lookupA hw)
        rw [hw, hv, hwz]
  have hlookIn : ∀ b ∈ tx.inputs, ∀ c ∈ b.coins, ∃ v,
      lookupA (buildIssuers [] defs) c.denom = some v :=
    fun b hb c hc => buildIssuers_isSome (Or.inr (hdefIn b hb c hc))
  have hlookOut : ∀ b ∈ tx.outputs, ∀ c ∈ b.coins, ∃ v,
      lookupA (buildIssuers [] defs) c.denom = some v :=
    fun b hb c hc => buildIssuers_isSome (Or.inr (hdefOut b hb c hc))
  obtain ⟨niiIn, heqIn⟩ := nonIssuerSide_isSome hlookIn []
  obtain ⟨niiOut, heqOut⟩ := nonIssuerSide_isSome hlookOut []
  have hmaps : ∀ b ∈ tx.inputs, ∀ c ∈ b.coins, ∃ iss,
      lookupA (buildIssuers [] defs) c.denom = some iss ∧
      (b.address = iss ∨
        ((∃ x, lookupA (minAmountsMap niiIn niiOut [] defs) c.denom = some x) ∧
         (∃ x, lookupA (buildBurnRates [] defs) c.denom = some x) ∧
         (∃ x, lookupA niiIn c.denom = some x) ∧
         (∃ x, lookupA (buildCommissionRates [] defs) c.denom = some x))) := by
    intro b hb c hc
    obtain ⟨iss, hiss⟩ := hlookIn b hb c hc
    refine ⟨iss, hiss, ?_⟩
    by_cases haddr : b.address = iss
    · exact Or.inl haddr
    · refine Or.inr ⟨minAmountsMap_isSome (Or.inr (hdefIn b hb c hc)),
        buildBurnRates_isSome (Or.inr (hdefIn b hb c hc)), ?_,
        buildCommissionRates_isSome (Or.inr (hdefIn b hb c hc))⟩
      exact lookup_isSome_of_mem_keys (nonIssuerSide_key_of_mem hb hc hiss haddr heqIn)
  obtain ⟨comm2, changes2, heqPI, hcz, hchz⟩ :=
    processInputs_zero_ok hinz hmaps hbal [] []
      (fun p hp => absurd hp (List.not_mem_nil p))
      (fun p hp => absurd hp (List.not_mem_nil p))
  have hAOz : allZeroC (applyOutputs changes2 tx.outputs) := applyOutputs_zero houtz hchz
  have heqAC : applyCommissions (buildIssuers [] defs) (applyOutputs changes2 tx.outputs)
      comm2 = .ok (applyOutputs changes2 tx.outputs) :=
    applyCommissions_zero hcz _
  have hasm : assemble (applyOutputs changes2 tx.outputs) = [] := assemble_zero hAOz
  simp only [calculate_balance_changes, hm, if_true, heqIn, heqOut, heqPI, heqAC, hasm]

/-- Witness for the amended C8: the concrete zero-amount transfer with a
zero coin record on the payer side succeeds with an empty delta list. -/
theorem all_zero_ok_empty_witness :
    calculate_balance_changes zeroBalancesOk zeroDefs zeroTx = .ok [] :=
  all_zero_ok_empty zeroBalancesOk zeroDefs zeroTx
    (by intro b hb c hc; simp [zeroTx] at hb; subst hb; simp at hc; subst hc; rfl)
    (by intro b hb c hc; simp [zeroTx] at hb; subst hb; simp at hc; subst hc; rfl)
    (by intro d; simp [zeroTx])
    (by
      intro b hb c hc
      refine ⟨⟨"den", "issr", 1/2, 1/2⟩, by simp [zeroDefs], ?_⟩
      simp [zeroTx] at hb
      rcases hb with hb | hb <;> subst hb <;> simp at hc <;> subst hc <;> rfl)
    (by
      intro b hb
      simp [zeroTx] at hb
      subst hb
      refine ⟨⟨"acct", [⟨"den", 0⟩]⟩, rfl, ?_⟩
      intro c hc
      simp at hc
      subst hc
      exact ⟨⟨"den", 0⟩, rfl, le_refl 0⟩)
